import Mathlib

/-!
# dle: Docker log shipping to logentries

A shallow embedding of the two programs of the repository:

* `DleDocker` embeds `src/src/github.com/JustAdam/dle/{dle.go, tls.go}`, the variant that
  attaches to the Docker daemon (`LogWriter`, `LogWatcher.AddContainer`, the delivery loop of
  `main`);
* `Dle` embeds `src/dle.go`, the variant that tails the log files of Docker (`WatchLogs`, `New`,
  `AddLog`, `Watch`, `LogLine.String`, `WatchDockerLogDirectory`, the delivery loop of `main`).

Go strings and byte slices are sequences of bytes, so both are `List UInt8` here.  Channels are
represented by the list of values sent on them, maps by association lists together with the
order in which a `range` statement visits them, and the outcome of input/output by explicit
parameters.
-/

/-- A Go `string` (and a `[]byte`): a finite sequence of bytes. -/
abbrev GoString := List UInt8

/-- The bytes of a string literal of the source (source files are UTF-8). -/
def str (s : String) : GoString := s.data.flatMap String.utf8EncodeChar

namespace GoLib

/-- Go `strings.HasPrefix`: `len(s) >= len(prefix) && s[0:len(prefix)] == prefix`. -/
def stringsHasPrefix (s pre : GoString) : Bool :=
  decide (pre.length ≤ s.length) && decide (s.take pre.length = pre)

/-- Go `strings.SplitN(s, sep, n)` for a one-byte separator `sep` and `n ≥ 0`: cuts `s` at the
first `n - 1` occurrences of `sep`; the last piece is the unsplit remainder. -/
def stringsSplitN (s : GoString) (sep : UInt8) : Nat → List GoString
  | 0 => []
  | 1 => [s]
  | n + 2 =>
    if sep ∈ s then
      s.takeWhile (fun b => b != sep) ::
        stringsSplitN ((s.dropWhile (fun b => b != sep)).drop 1) sep (n + 1)
    else [s]

/-- Go `os.isShellSpecialVar`. -/
def isShellSpecialVar (c : UInt8) : Bool :=
  c ∈ str "*#$@!?-0123456789"

/-- Go `os.isAlphaNum`. -/
def isAlphaNum (c : UInt8) : Bool :=
  c == 95 || (48 ≤ c && c ≤ 57) || (97 ≤ c && c ≤ 122) || (65 ≤ c && c ≤ 90)

/-- The scan for the closing brace in `os.getShellName`, started at index `i` of `s`
(`t` is `s[i:]`). -/
def scanBrace (s : GoString) : Nat → GoString → GoString × Nat
  | _, [] => ([], 1)
  | i, c :: t =>
    if c = 125 then
      if i = 1 then ([], 2) else ((s.take i).drop 1, i + 1)
    else scanBrace s (i + 1) t

/-- Go `os.getShellName`: the name that follows a `$` and the number of bytes it takes.  It is
only called on a non-empty `s`. -/
def getShellName (s : GoString) : GoString × Nat :=
  match s with
  | [] => ([], 0)
  | c :: t =>
    if c = 123 then
      if decide (s.length > 2) && isShellSpecialVar (s.getD 1 0) && s.getD 2 0 == 125 then
        ((s.take 2).drop 1, 3)
      else scanBrace s 1 t
    else if isShellSpecialVar c then ([c], 1)
    else (s.takeWhile isAlphaNum, (s.takeWhile isAlphaNum).length)

/-- The loop of Go `os.Expand` over the not yet copied bytes `s`.  A mapping that panics
(`none`) makes the expansion panic. -/
def expandLoop (mapping : GoString → Option GoString) : Nat → GoString → Option GoString
  | 0, _ => some []
  | _ + 1, [] => some []
  | fuel + 1, c :: t =>
    if c = 36 ∧ t ≠ [] then
      let nw := getShellName t
      if nw.1 = [] ∧ nw.2 > 0 then
        expandLoop mapping fuel (t.drop nw.2)
      else if nw.1 = [] then
        (expandLoop mapping fuel (t.drop nw.2)).map (fun r => c :: r)
      else
        match mapping nw.1 with
        | none => none
        | some v => (expandLoop mapping fuel (t.drop nw.2)).map (fun r => v ++ r)
    else (expandLoop mapping fuel t).map (fun r => c :: r)

/-- Go `os.Expand(s, mapping)`: replaces `$name` and `${name}` in `s` by `mapping(name)`. -/
def osExpand (s : GoString) (mapping : GoString → Option GoString) : Option GoString :=
  expandLoop mapping s.length s

/-- Go `utf8.RuneError`. -/
def RuneError : Nat := 0xFFFD

/-- Go `utf8.DecodeRuneInString`: the first rune of `s` and its width in bytes; an empty `s`
gives `(RuneError, 0)` and an invalid encoding `(RuneError, 1)`. -/
def DecodeRuneInString (s : GoString) : Nat × Nat :=
  match s with
  | [] => (RuneError, 0)
  | b :: t =>
    let s0 := b.toNat
    if s0 < 0x80 then (s0, 1)
    else if s0 < 0xC2 ∨ 0xF4 < s0 then (RuneError, 1)
    else
      let sz := if s0 < 0xE0 then 2 else if s0 < 0xF0 then 3 else 4
      let lo := if s0 = 0xE0 then 0xA0 else if s0 = 0xF0 then 0x90 else 0x80
      let hi := if s0 = 0xED then 0x9F else if s0 = 0xF4 then 0x8F else 0xBF
      if s.length < sz then (RuneError, 1)
      else
        let s1 := (t.getD 0 0).toNat
        if s1 < lo ∨ hi < s1 then (RuneError, 1)
        else if sz ≤ 2 then ((s0 % 32) * 64 + s1 % 64, 2)
        else
          let s2 := (t.getD 1 0).toNat
          if s2 < 0x80 ∨ 0xBF < s2 then (RuneError, 1)
          else if sz ≤ 3 then ((s0 % 16) * 4096 + (s1 % 64) * 64 + s2 % 64, 3)
          else
            let s3 := (t.getD 2 0).toNat
            if s3 < 0x80 ∨ 0xBF < s3 then (RuneError, 1)
            else ((s0 % 8) * 262144 + (s1 % 64) * 4096 + (s2 % 64) * 64 + s3 % 64, 4)

/-- The path separator of `path/filepath` on Unix, the byte of `/`. -/
def Separator : UInt8 := 47

/-- The backtracking of `filepath.Clean` on a `..` element: `out.w--`, then `out.w--` while
`out.w > dotdot` and the byte at `out.w` is no separator.  The argument is `out.w - 1`. -/
def cleanBacktrack (out : GoString) (dotdot : Nat) : Nat → Nat
  | 0 => 0
  | w + 1 =>
    if w + 1 > dotdot ∧ out.getD (w + 1) 0 ≠ Separator then cleanBacktrack out dotdot w
    else w + 1

/-- The main loop of `filepath.Clean`: `path` is what is left to read, `out` the buffer written
so far (`out.w` is its length), `dotdot` the index where `..` must stop. -/
def cleanLoop (rooted : Bool) : Nat → GoString → GoString → Nat → GoString
  | 0, _, out, _ => out
  | _ + 1, [], out, _ => out
  | fuel + 1, c :: rest, out, dotdot =>
    if c = Separator then
      cleanLoop rooted fuel rest out dotdot
    else if c = 46 ∧ (rest = [] ∨ rest.head? = some Separator) then
      cleanLoop rooted fuel rest out dotdot
    else if c = 46 ∧ rest.head? = some 46 ∧
        (rest.tail = [] ∨ rest.tail.head? = some Separator) then
      if out.length > dotdot then
        cleanLoop rooted fuel rest.tail
          (out.take (cleanBacktrack out dotdot (out.length - 1))) dotdot
      else if !rooted then
        let out1 := (if out.length > 0 then out ++ [Separator] else out) ++ [46, 46]
        cleanLoop rooted fuel rest.tail out1 out1.length
      else
        cleanLoop rooted fuel rest.tail out dotdot
    else
      let out1 :=
        if (rooted ∧ out.length ≠ 1) ∨ (!rooted ∧ out.length ≠ 0) then out ++ [Separator]
        else out
      cleanLoop rooted fuel ((c :: rest).dropWhile (fun b => b != Separator))
        (out1 ++ (c :: rest).takeWhile (fun b => b != Separator)) dotdot

/-- Go `filepath.Clean` (Unix): the shortest path name equivalent to `path`. -/
def Clean (path : GoString) : GoString :=
  match path with
  | [] => str "."
  | c :: rest =>
    let rooted := c == Separator
    let out :=
      if rooted then cleanLoop true (path.length + 1) rest [Separator] 1
      else cleanLoop false (path.length + 1) path [] 0
    if out = [] then str "." else out

/-- Go `filepath.Base` (Unix): the last element of `path`, trailing separators removed. -/
def Base (path : GoString) : GoString :=
  if path = [] then str "."
  else
    let stripped := (path.reverse.dropWhile (fun b => b == Separator)).reverse
    let last := (stripped.reverse.takeWhile (fun b => b != Separator)).reverse
    if last = [] then [Separator] else last

/-- Go `filepath.Dir` (Unix): `Clean` of `path` up to and including its last separator. -/
def Dir (path : GoString) : GoString :=
  Clean (path.reverse.dropWhile (fun b => b != Separator)).reverse

/-- Go `strings.Join(elems, "/")`. -/
def joinSep : List GoString → GoString
  | [] => []
  | [e] => e
  | e :: es => e ++ Separator :: joinSep es

/-- Go `filepath.Join` (Unix): the elements from the first non-empty one on, joined by the
separator and cleaned; the empty string when all are empty. -/
def Join : List GoString → GoString
  | [] => []
  | e :: es => if e ≠ [] then Clean (joinSep (e :: es)) else Join es

/-- The scan of `filepath.scanChunk` after the leading stars: the chunk up to the next star
outside a character class, and the rest of the pattern. -/
def scanChunkBody : GoString → Bool → GoString × GoString
  | [], _ => ([], [])
  | [c], inrange => if c = 42 ∧ !inrange then ([], [c]) else ([c], [])
  | c :: d :: t, inrange =>
    if c = 92 then
      let r := scanChunkBody t inrange
      (c :: d :: r.1, r.2)
    else if c = 91 then
      let r := scanChunkBody (d :: t) true
      (c :: r.1, r.2)
    else if c = 93 then
      let r := scanChunkBody (d :: t) false
      (c :: r.1, r.2)
    else if c = 42 ∧ !inrange then ([], c :: d :: t)
    else
      let r := scanChunkBody (d :: t) inrange
      (c :: r.1, r.2)

/-- Go `filepath.scanChunk`: `(star, chunk, rest)`. -/
def scanChunk (pattern : GoString) : Bool × GoString × GoString :=
  let p := pattern.dropWhile (fun b => b == 42)
  let r := scanChunkBody p false
  (decide (p.length < pattern.length), r.1, r.2)

/-- Go `filepath.getEsc`: a possibly escaped character of a character class and the rest of
the chunk; `none` is `ErrBadPattern`. -/
def getEsc (chunk : GoString) : Option (Nat × GoString) :=
  match chunk with
  | [] => none
  | c :: t =>
    if c = 45 ∨ c = 93 then none
    else
      let chunk1 := if c = 92 then t else chunk
      if chunk1 = [] then none
      else
        let d := DecodeRuneInString chunk1
        if d.1 = RuneError ∧ d.2 = 1 then none
        else if chunk1.drop d.2 = [] then none
        else some (d.1, chunk1.drop d.2)

/-- The loop "parse all ranges" of `filepath.matchChunk` for the rune `r`: whether a range
held `r`, and the chunk after the closing bracket; `none` is `ErrBadPattern`. -/
def classRanges (r : Nat) : Nat → GoString → Nat → Bool → Option (Bool × GoString)
  | 0, _, _, _ => none
  | fuel + 1, chunk, nrange, m =>
    if chunk.head? = some 93 ∧ nrange > 0 then some (m, chunk.tail)
    else
      match getEsc chunk with
      | none => none
      | some (lo, chunk1) =>
        if chunk1.head? = some 45 then
          match getEsc chunk1.tail with
          | none => none
          | some (hi, chunk2) =>
            classRanges r fuel chunk2 (nrange + 1) (m || (decide (lo ≤ r) && decide (r ≤ hi)))
        else
          classRanges r fuel chunk1 (nrange + 1) (m || (decide (lo ≤ r) && decide (r ≤ lo)))

/-- The result of `filepath.matchChunk`. -/
inductive ChunkResult where
  /-- The chunk matched a beginning of the name; `rest` is the remainder: `(rest, true, nil)`. -/
  | ok (rest : GoString)
  /-- No match: `("", false, nil)`. -/
  | failed
  /-- A malformed pattern: `("", false, ErrBadPattern)`. -/
  | bad
deriving DecidableEq, Repr

/-- The loop of Go `filepath.matchChunk` over the chunk, with its flag `failed`. -/
def matchChunkLoop : Nat → GoString → GoString → Bool → ChunkResult
  | 0, _, _, _ => .bad
  | _ + 1, [], s, failed => if failed then .failed else .ok s
  | fuel + 1, c :: ct, s, failed0 =>
    let failed := failed0 || s.isEmpty
    if c = 91 then
      let d := DecodeRuneInString s
      let r := if failed then 0 else d.1
      let s1 := if failed then s else s.drop d.2
      let negated := decide (ct.head? = some 94)
      let chunk := if negated then ct.tail else ct
      match classRanges r (chunk.length + 1) chunk 0 false with
      | none => .bad
      | some (m, chunk1) => matchChunkLoop fuel chunk1 s1 (failed || (m == negated))
    else if c = 63 then
      if failed then matchChunkLoop fuel ct s failed
      else
        matchChunkLoop fuel ct (s.drop (DecodeRuneInString s).2)
          (decide (s.head? = some Separator))
    else if c = 92 then
      match ct with
      | [] => .bad
      | e :: et =>
        if failed then matchChunkLoop fuel et s failed
        else matchChunkLoop fuel et s.tail (decide (s.head? ≠ some e))
    else
      if failed then matchChunkLoop fuel ct s failed
      else matchChunkLoop fuel ct s.tail (decide (s.head? ≠ some c))

/-- Go `filepath.matchChunk`: does `chunk` (a pattern without a star outside a class) match
a beginning of `s`? -/
def matchChunk (chunk s : GoString) : ChunkResult :=
  matchChunkLoop (chunk.length + 1) chunk s false

/-- What the search after a star in `filepath.Match` comes to. -/
inductive StarResult where
  /-- The chunk matched after skipping some bytes; the name continues at `rest`. -/
  | found (rest : GoString)
  /-- No position matched. -/
  | notFound
  /-- A malformed pattern. -/
  | bad
deriving DecidableEq, Repr

/-- The loop "look for match skipping i+1 bytes" of `filepath.Match`; the argument is `name[i:]`
and `lastChunk` is `len(pattern) == 0`. -/
def starLoop (chunk : GoString) (lastChunk : Bool) : GoString → StarResult
  | [] => .notFound
  | c :: rest =>
    if c = Separator then .notFound
    else
      match matchChunk chunk rest with
      | .ok t => if lastChunk ∧ t ≠ [] then starLoop chunk lastChunk rest else .found t
      | .failed => starLoop chunk lastChunk rest
      | .bad => .bad

/-- The final check of `filepath.Match` that the remainder of the pattern is well formed: `true`
when a chunk of it is malformed. -/
def restBad : Nat → GoString → Bool
  | 0, _ => false
  | _ + 1, [] => false
  | fuel + 1, pattern =>
    let sc := scanChunk pattern
    if matchChunk sc.2.1 [] = .bad then true else restBad fuel sc.2.2

/-- The loop `Pattern` of `filepath.Match`: `(matched, err != nil)`. -/
def matchLoop : Nat → GoString → GoString → Bool × Bool
  | 0, _, _ => (false, false)
  | _ + 1, [], name => (name.isEmpty, false)
  | fuel + 1, pattern, name =>
    let sc := scanChunk pattern
    let star := sc.1
    let chunk := sc.2.1
    let rest := sc.2.2
    if star ∧ chunk = [] then (!(name.contains Separator), false)
    else
      match matchChunk chunk name with
      | .bad => (false, true)
      | r =>
        if (match r with
            | .ok t => decide (t = [] ∨ rest ≠ [])
            | _ => false) then
          matchLoop fuel rest (match r with
            | .ok t => t
            | _ => [])
        else
          match (if star then starLoop chunk (decide (rest = [])) name else .notFound) with
          | .found t => matchLoop fuel rest t
          | .bad => (false, true)
          | .notFound => (false, restBad (rest.length + 1) rest)

/-- Go `filepath.Match(pattern, name)`: `(matched, err != nil)`. -/
def Match (pattern name : GoString) : Bool × Bool :=
  matchLoop (pattern.length + 1) pattern name

/-- The element `.` stands at the head of the path `c :: rest`. -/
def isDot (c : UInt8) (rest : GoString) : Prop :=
  c = 46 ∧ (rest = [] ∨ rest.head? = some Separator)

/-- The element `..` stands at the head of the path `c :: rest`. -/
def isDotDot (c : UInt8) (rest : GoString) : Prop :=
  c = 46 ∧ rest.head? = some 46 ∧ (rest.tail = [] ∨ rest.tail.head? = some Separator)

instance (c : UInt8) (rest : GoString) : Decidable (isDot c rest) := by
  unfold isDot
  infer_instance

instance (c : UInt8) (rest : GoString) : Decidable (isDotDot c rest) := by
  unfold isDotDot
  infer_instance

/-- What one iteration of the loop of `filepath.Clean` leaves to read of the path
`c :: rest`. -/
def cleanRest (c : UInt8) (rest : GoString) : GoString :=
  if c = Separator then rest
  else if isDot c rest then rest
  else if isDotDot c rest then rest.tail
  else (c :: rest).dropWhile (fun b => b != Separator)

/-- The buffer after one iteration of the loop of `filepath.Clean` on the path `c :: rest`. -/
def cleanOut (rooted : Bool) (c : UInt8) (rest out : GoString) (dotdot : Nat) : GoString :=
  if c = Separator then out
  else if isDot c rest then out
  else if isDotDot c rest then
    if out.length > dotdot then out.take (cleanBacktrack out dotdot (out.length - 1))
    else if !rooted then (if out.length > 0 then out ++ [Separator] else out) ++ [46, 46]
    else out
  else
    (if (rooted ∧ out.length ≠ 1) ∨ (!rooted ∧ out.length ≠ 0) then out ++ [Separator]
      else out) ++ (c :: rest).takeWhile (fun b => b != Separator)

/-- The index where `..` must stop after one iteration of the loop of `filepath.Clean`. -/
def cleanDotdot (rooted : Bool) (c : UInt8) (rest out : GoString) (dotdot : Nat) : Nat :=
  if c = Separator then dotdot
  else if isDot c rest then dotdot
  else if isDotDot c rest then
    if out.length > dotdot then dotdot
    else if !rooted then
      ((if out.length > 0 then out ++ [Separator] else out) ++ [46, 46]).length
    else dotdot
  else dotdot

/-- The path `x` ends at the boundary of an element: it is empty or ends with a separator. -/
def Bdry (x : GoString) : Prop := x = [] ∨ x.getLast? = some Separator

/-- A plain path element: not empty, without separator, and neither `.` nor `..`. -/
def Plain (e : GoString) : Prop := e ≠ [] ∧ Separator ∉ e ∧ e ≠ [46] ∧ e ≠ [46, 46]

/-- The invariant of the loop of `Clean` on a rooted path: the buffer starts with the
separator and `..` stops behind it. -/
def Rooted (rooted : Bool) (out : GoString) (dotdot : Nat) : Prop :=
  rooted = true → dotdot = 1 ∧ out.head? = some Separator

/-- The buffer of `Clean` with the separator that precedes a new element, "add slash if
needed". -/
def withSep (rooted : Bool) (out : GoString) : GoString :=
  if (rooted ∧ out.length ≠ 1) ∨ (!rooted ∧ out.length ≠ 0) then out ++ [Separator] else out

end GoLib

namespace DleDocker

open GoLib

/-- The `LogWriter` of the source; its `logline` channel is passed to `Write` as the list of
values sent so far. -/
structure LogWriter where
  token : GoString
deriving DecidableEq, Repr

/-- The result of `LogWriter.Write`: the channel after the send and the returned `(n, err)`. -/
structure WriteResult where
  logline : List GoString
  n : Nat
  err : Option GoString
deriving DecidableEq, Repr

/-- The method `LogWriter.Write`: `output := append([]byte(l.token), p...)`, `l.logline <- output`,
`return len(p), nil`. -/
def LogWriter.Write (l : LogWriter) (logline : List GoString) (p : GoString) : WriteResult :=
  let token := l.token
  let output := token ++ p
  { logline := logline ++ [output], n := p.length, err := none }

/-- The closure `envExpand` of `AddContainer` over `c.Config.Env`: the value of the first entry
that starts with `key=`.  Indexing the split result out of range panics (`none`). -/
def envExpand (env : List GoString) (key : GoString) : Option GoString :=
  match env with
  | [] => some []
  | v :: rest =>
    if stringsHasPrefix v (key ++ str "=") then (stringsSplitN v 61 2).get? 1
    else envExpand rest key

/-- What a call of `AddContainer` comes to. -/
inductive AddResult where
  /-- The call of `InspectContainer` failed: a warning is logged and nothing is watched. -/
  | inspectFailed
  /-- The variable `DLE_IGNORE` is set to a non-empty value. -/
  | ignored
  /-- A run-time panic. -/
  | panicked
  /-- The logs of the container are streamed into this writer. -/
  | watching (logwriter : LogWriter)
deriving DecidableEq, Repr

/-- The method `LogWatcher.AddContainer` up to the creation of the `LogWriter`; `inspect` is
the result of `lw.docker.InspectContainer(cid)`: `none` for an error, the `Config.Env` list
otherwise. -/
def AddContainer (inspect : Option (List GoString)) (defaultToken : GoString) : AddResult :=
  match inspect with
  | none => .inspectFailed
  | some env =>
    match osExpand (str "$DLE_IGNORE") (envExpand env) with
    | none => .panicked
    | some ign =>
      if ign ≠ [] then .ignored
      else
        match osExpand (str "$DLE_TOKEN") (envExpand env) with
        | none => .panicked
        | some token =>
          let token := if token = [] then defaultToken else token
          .watching { token := token }

/-- What the delivery loop of `main` does, as seen from outside. -/
inductive Act where
  /-- A call `lec.Write(l)` and whether it returned without an error. -/
  | write (l : GoString) (ok : Bool)
  /-- A call `lec.Connect()` and whether it returned without an error. -/
  | connect (ok : Bool)
  /-- A call of `log.Fatal`: the process exits. -/
  | fatal
deriving DecidableEq, Repr

/-- How the delivery loop ends. -/
inductive Exit where
  /-- The `range` over the channel ended. -/
  | drained
  /-- The process was ended by `log.Fatal`. -/
  | fatal
deriving DecidableEq, Repr

/-- The delivery loop of `main`, `for l := range logwatcher.LogLines`, over the lines the
channel delivers.  `net k` tells whether the `k`-th call on the connection (`Write` or
`Connect`, counted from `n`) succeeds. -/
def mainLoop (net : Nat → Bool) : Nat → List GoString → List Act × Exit
  | _, [] => ([], .drained)
  | n, l :: rest =>
    if net n then
      let r := mainLoop net (n + 1) rest
      (.write l true :: r.1, r.2)
    else if net (n + 1) then
      -- the result of the second lec.Write(l) is discarded
      let r := mainLoop net (n + 3) rest
      (.write l false :: .connect true :: .write l (net (n + 2)) :: r.1, r.2)
    else
      ([.write l false, .connect false, .fatal], .fatal)

/-- The text after the first byte `=` of `v`, further `=` bytes included. -/
def afterFirstEq (v : GoString) : GoString := v.drop (v.indexOf 61 + 1)

/-- The source-specific override named `key`, in the words of the specification: the text after
the first `=` of the first environment entry that starts with `key=`; empty when there is no
such entry. -/
def overrideValue (key : GoString) (env : List GoString) : GoString :=
  match env.find? (fun v => (key ++ str "=").isPrefixOf v) with
  | some v => afterFirstEq v
  | none => []

/-- The token of the specification: the override `DLE_TOKEN` if present (non-empty), the default
token otherwise. -/
def specToken (env : List GoString) (defaultToken : GoString) : GoString :=
  if overrideValue (str "DLE_TOKEN") env ≠ [] then overrideValue (str "DLE_TOKEN") env
  else defaultToken

end DleDocker


namespace Dle

open GoLib

/-- The `LogWatch` of the source.  Its field `Quit` is a channel created afresh by `AddLog`
and carries no data of its own; it is left out. -/
structure LogWatch where
  Key : GoString
  File : GoString
  Name : GoString
deriving DecidableEq, Repr

/-- A Go `map[string]*LogWatch` that is not nil: its entries, each key once. -/
abbrev ContainerMap := List (GoString × LogWatch)

/-- Go `m[k]` with the comma-ok form: the entry under `k`, if any. -/
def mapGet (m : ContainerMap) (k : GoString) : Option LogWatch :=
  match m with
  | [] => none
  | e :: rest => if e.1 = k then some e.2 else mapGet rest k

/-- Go `m[k] = v`. -/
def mapSet (m : ContainerMap) (k : GoString) (v : LogWatch) : ContainerMap :=
  match m with
  | [] => [(k, v)]
  | e :: rest => if e.1 = k then (k, v) :: rest else e :: mapSet rest k v

/-- Go `delete(m, k)`. -/
def mapDelete (m : ContainerMap) (k : GoString) : ContainerMap :=
  m.filter (fun e => e.1 != k)

/-- The keys of a map. -/
def mapKeys (m : ContainerMap) : List GoString := m.map (fun e => e.1)

/-- The order in which one execution of a `range` statement visits the entries of a map: Go
leaves it unspecified, every entry is visited once. -/
structure RangeOrder where
  visit : ContainerMap → ContainerMap
  perm : ∀ m, (visit m).Perm m

/-- The `range` that visits the entries as they are listed. -/
def RangeOrder.listed : RangeOrder := ⟨fun m => m, fun m => List.Perm.refl m⟩

/-- The `range` that visits the entries in the opposite order. -/
def RangeOrder.reversed : RangeOrder := ⟨List.reverse, fun m => List.reverse_perm m⟩

/-- The `WatchLogs` of the source (its mutex aside).  `Containers` is `none` for the nil map,
which is what decoding a configuration without any `container` table leaves. -/
structure WatchLogs where
  Containers : Option ContainerMap
  Ignore : List GoString
deriving DecidableEq, Repr

/-- The entries a `range` over `wl.Containers` has to visit (none for the nil map). -/
def WatchLogs.entries (wl : WatchLogs) : ContainerMap := wl.Containers.getD []

/-- The `LogLine` of the source; of `Line *tail.Line` only the field `Text` is used. -/
structure LogLine where
  Text : GoString
  Key : GoString
  Name : GoString
deriving DecidableEq, Repr

/-- The `DockerLogEntry` of the source. -/
structure DockerLogEntry where
  Log : GoString
  Stream : GoString
deriving DecidableEq, Repr

/-- The method `DockerLogEntry.String`: `fmt.Sprintf("(%s) %s", dl.Stream, dl.Log)`. -/
def DockerLogEntry.String (dl : DockerLogEntry) : GoString :=
  str "(" ++ dl.Stream ++ str ") " ++ dl.Log

/-- The first entry, in the order of the visit, whose key `start` makes
`filepath.Match(start+"*", filename)` report a match (its error is discarded): the loop of
`AddLog` breaks there. -/
def firstMatch (visit : ContainerMap) (filename : GoString) : Option (GoString × LogWatch) :=
  match visit with
  | [] => none
  | e :: rest =>
    if (Match (e.1 ++ str "*") filename).1 then some e else firstMatch rest filename

/-- The method `WatchLogs.AddLog`; `none` is the run-time panic of an assignment to an entry
of a nil map.  `order` is the order of the `range` over `wl.Containers`. -/
def AddLog (defaultLogKey : GoString) (order : RangeOrder) (wl : WatchLogs) (file : GoString) :
    Option WatchLogs :=
  let filename := Base file
  let found := firstMatch (order.visit wl.entries) filename
  let containerID := (found.map (fun e => e.1)).getD []
  let logKey := (found.map (fun e => e.2.Key)).getD []
  let logName := (found.map (fun e => e.2.Name)).getD []
  let containerID := if containerID = [] then Base (Dir file) else containerID
  let logKey := if logKey = [] then defaultLogKey else logKey
  match wl.Containers with
  | none => none
  | some m =>
    let logWatch : LogWatch := { Key := logKey, Name := logName, File := file }
    some { wl with Containers := some (mapSet m containerID logWatch) }

/-- The loop "match up files against config settings" of `New`; `order i` is the order of the
`range` inside the `i`-th call of `AddLog`. -/
def addLogs (defaultLogKey : GoString) (order : Nat → RangeOrder) :
    Nat → List GoString → WatchLogs → Option WatchLogs
  | _, [], wl => some wl
  | i, file :: files, wl =>
    match AddLog defaultLogKey (order i) wl file with
    | none => none
    | some wl1 => addLogs defaultLogKey order (i + 1) files wl1

/-- The loop "remove ignored containers" of `New` over the ignore list `ignore`. -/
def removeIgnored (ignore : List GoString) (m : ContainerMap) : ContainerMap :=
  match ignore with
  | [] => m
  | cid :: rest =>
    removeIgnored rest (if (mapGet m cid).isSome then mapDelete m cid else m)

/-- The last loop of `New`, which removes the entries configured without an existing log
file (an empty `File`). -/
def removeMissing (m : ContainerMap) : ContainerMap :=
  m.filter (fun e => e.2.File != [])

/-- The function `New`: `config` is what `toml.DecodeFile` has decoded and `files` what
`filepath.Glob` has found (a failure of either is fatal before anything is built); `none` is a
run-time panic. -/
def New (defaultLogKey : GoString) (order : Nat → RangeOrder) (config : WatchLogs)
    (files : List GoString) : Option WatchLogs :=
  match addLogs defaultLogKey order 0 files config with
  | none => none
  | some wl =>
    let cleaned := wl.Containers.map (fun m => removeMissing (removeIgnored wl.Ignore m))
    some { wl with Containers := cleaned }

/-- The method `WatchLogs.Start`: the arguments of the `go Watch(logLines, container)`
statements it runs, one for each descriptor of the store, in the order of its `range`. -/
def Start (order : RangeOrder) (wl : WatchLogs) : List (Option LogWatch) :=
  (order.visit wl.entries).map (fun e => some e.2)

/-- Which case of the `select` of `Watch` fires next. -/
inductive Sel where
  /-- A line arrives on `t.Lines`. -/
  | line (text : GoString)
  /-- A value arrives on `logfile.Quit`. -/
  | quit
deriving DecidableEq, Repr

/-- What `Watch` does, as seen from outside. -/
inductive WatchAct where
  /-- The warning about an empty `logfile.File`. -/
  | warnEmpty
  /-- The warning "Unable to tail file". -/
  | warnTail
  /-- The message "Watching file". -/
  | infoWatching
  /-- A line is sent on the output channel. -/
  | send (ll : LogLine)
  /-- The message "Stopping tail". -/
  | infoStopping
  /-- The call `t.Stop()`. -/
  | tailStop
  /-- The acknowledgement `logfile.Quit <- true`. -/
  | quitAck
deriving DecidableEq, Repr

/-- How a run of `Watch` stands at the end of what was observed. -/
inductive Outcome where
  /-- The function has returned. -/
  | returned
  /-- A run-time panic (nil pointer dereference). -/
  | panicked
  /-- The function is inside its loop, blocked in the `select`. -/
  | waiting
deriving DecidableEq, Repr

/-- The `for`/`select` loop of `Watch` with an open tail. -/
def watchLoop (logfile : LogWatch) : List Sel → List WatchAct × Outcome
  | [] => ([], .waiting)
  | .line text :: rest =>
    let r := watchLoop logfile rest
    (.send { Key := logfile.Key, Name := logfile.Name, Text := text } :: r.1, r.2)
  | .quit :: _ => ([.infoStopping, .tailStop, .quitAck], .returned)

/-- The function `Watch(logline, logfile)`: `logfile` is `none` for a nil pointer, `tailOk`
tells whether `tail.TailFile` returned without an error (on an error it returns a nil `*Tail`),
`sel` is the sequence of `select` cases that fire. -/
def Watch (logfile : Option LogWatch) (tailOk : Bool) (sel : List Sel) :
    List WatchAct × Outcome :=
  match logfile with
  | none => ([], .panicked)
  | some lf =>
    if lf.File = [] then ([.warnEmpty], .returned)
    else if !tailOk then
      -- the warning is logged, nothing returns; the select then evaluates t.Lines on a nil t
      ([.warnTail, .infoWatching], .panicked)
    else
      let r := watchLoop lf sel
      (.infoWatching :: r.1, r.2)

/-- The method `LogLine.String`; `parseDockerLogFormat` is the global flag and `unmarshal` is
`json.Unmarshal` into a `DockerLogEntry` (`none` when it returns an error). -/
def LogLine.String (parseDockerLogFormat : Bool)
    (unmarshal : GoString → Option DockerLogEntry) (ll : LogLine) : GoString :=
  if parseDockerLogFormat then
    match unmarshal ll.Text with
    | none => []
    | some dlog => ll.Key ++ str " " ++ ll.Name ++ str " " ++ dlog.String
  else ll.Key ++ str " " ++ ll.Name ++ str " " ++ ll.Text

/-- The body of the delivery loop of `main`, `fmt.Fprintln(lec, line)`: the bytes handed to
`lec.Write` in one call, the `String()` of the line followed by a newline. -/
def Fprintln (parseDockerLogFormat : Bool) (unmarshal : GoString → Option DockerLogEntry)
    (line : LogLine) : GoString :=
  LogLine.String parseDockerLogFormat unmarshal line ++ [10]

/-- Modelled from the spec: the type `LogEntriesConnection` of `main` is not among the sources.
The specification has each unit "written directly to the encrypted stream; no framing" and
nothing read back, so `Write` appends the bytes it is given, as one unit, to the stream sent to
the remote endpoint. -/
def LogEntriesConnection.Write (stream : List GoString) (p : GoString) : List GoString :=
  stream ++ [p]

/-- The delivery loop of `main` over the lines received from `logLines`: what the remote
endpoint is sent. -/
def mainLoop (parseDockerLogFormat : Bool) (unmarshal : GoString → Option DockerLogEntry)
    (lines : List LogLine) : List GoString :=
  lines.foldl
    (fun lec line => LogEntriesConnection.Write lec (Fprintln parseDockerLogFormat unmarshal line))
    []

/-- An event of the directory watcher: the bits `Create` and `Remove` of `event.Op`,
`event.Name`, and what `isDir(event.Name)` answers.  `acked` tells whether the tailer of the
descriptor answers the quit handshake of a removal. -/
structure Event where
  Name : GoString
  create : Bool
  remove : Bool
  isDir : Bool
  acked : Bool
deriving DecidableEq, Repr

/-- What handling one event comes to. -/
inductive Step where
  /-- The handler is back at its `select`: the store, and the arguments of the `go Watch`
  statements it has run (`none` is a nil `*LogWatch`). -/
  | done (store : WatchLogs) (watch : List (Option LogWatch))
  /-- A run-time panic in the handler. -/
  | panicked
  /-- The handler waits forever on a quit channel. -/
  | blocked
deriving DecidableEq, Repr

/-- The body of the event loop of `WatchDockerLogDirectory` for one event.  The test
`err != nil` before `AddLog` reads the error of `fsnotify.NewWatcher`, which is nil once the
loop runs, so the branch taken is the one that adds the file. -/
def handleEvent (defaultLogKey : GoString) (order : RangeOrder) (watchLogs : WatchLogs)
    (event : Event) : Step :=
  if event.create then
    if event.isDir then
      let cid := Base event.Name
      let addFile := !(watchLogs.Ignore.any (fun icid => cid == icid))
      if addFile then
        let file := Join [event.Name, cid ++ str "-json.log"]
        match AddLog defaultLogKey order watchLogs file with
        | none => .panicked
        | some wl => .done wl [wl.Containers.bind (fun m => mapGet m cid)]
      else .done watchLogs []
    else .done watchLogs []
  else if event.remove then
    let cid := Base event.Name
    match watchLogs.Containers.bind (fun m => mapGet m cid) with
    | some _ =>
      if event.acked then
        let deleted := watchLogs.Containers.map (fun m => mapDelete m cid)
        .done { watchLogs with Containers := deleted } []
      else .blocked
    | none => .done watchLogs []
  else .done watchLogs []

/-- The event loop of `WatchDockerLogDirectory` over a sequence of events, each with the order
of the `range` inside its `AddLog`: the store when all are handled, `none` when the handler
panics or blocks on the way. -/
def WatchDockerLogDirectory (defaultLogKey : GoString) :
    List (Event × RangeOrder) → WatchLogs → Option WatchLogs
  | [], wl => some wl
  | (event, order) :: rest, wl =>
    match handleEvent defaultLogKey order wl event with
    | .done wl1 _ => WatchDockerLogDirectory defaultLogKey rest wl1
    | _ => none

/-- A JSON string without escapes, control bytes or bytes outside ASCII, at the head of `s`:
its content and what follows the closing quote. -/
def plainString (s : GoString) : Option (GoString × GoString) :=
  match s with
  | [] => none
  | q :: t =>
    if q = 34 then
      let body := t.takeWhile (fun b => b != 34)
      if body.all (fun b => b != 92 && decide (32 ≤ b) && decide (b < 128)) then
        match t.dropWhile (fun b => b != 34) with
        | [] => none
        | _ :: rest => some (body, rest)
      else none
    else none

/-- ASCII lower case, for the case-insensitive match of member names with field names. -/
def lowerASCII (s : GoString) : GoString :=
  s.map (fun b => if 65 ≤ b ∧ b ≤ 90 then b + 32 else b)

/-- The assignment of a decoded member to the field of `DockerLogEntry` it names. -/
def setField (e : DockerLogEntry) (k v : GoString) : DockerLogEntry :=
  if lowerASCII k = str "log" then { e with Log := v }
  else if lowerASCII k = str "stream" then { e with Stream := v }
  else e

/-- The members `"name":"value"` of an object, separated by commas, up to the closing brace. -/
def plainMembers : Nat → GoString → DockerLogEntry → Option DockerLogEntry
  | 0, _, _ => none
  | fuel + 1, s, e =>
    match plainString s with
    | some (k, c :: s1) =>
      if c = 58 then
        match plainString s1 with
        | some (v, d :: s2) =>
          if d = 44 then plainMembers fuel s2 (setField e k v)
          else if d = 125 ∧ s2 = [] then some (setField e k v)
          else none
        | _ => none
      else none
    | _ => none

/-- A decoder for the JSON texts that the json-file driver of Docker writes in the simplest case:
one object, no white space, whose members are strings without escapes.  On these texts it
returns what `json.Unmarshal` into a `DockerLogEntry` returns; every other text is an error
for it.  It serves to evaluate the program on concrete lines; the general statements below hold
for every decoder. -/
def unmarshalPlain (text : GoString) : Option DockerLogEntry :=
  match text with
  | [] => none
  | c :: s =>
    if c = 123 then
      if s = [125] then some { Log := [], Stream := [] }
      else plainMembers (s.length + 1) s { Log := [], Stream := [] }
    else none

/-- The log file that the handler derives for the new directory `event.Name` lies in a
directory of that name. -/
def Event.inDirectory (event : Event) : Bool :=
  decide (Base (Dir (Join [event.Name, Base event.Name ++ str "-json.log"])) = Base event.Name)

/-- The name of the event is one the watcher reports for a new entry of the watched directory:
a directory, a separator and the name of a directory entry. -/
def Event.fromWatcher (event : Event) : Prop :=
  ∃ dir entry, event.Name = dir ++ Separator :: entry ∧ Plain entry

/-- The name of the parent directory of a log file, the source identifier of the
specification. -/
def containerDir (file : GoString) : GoString := Base (Dir file)

/-- The descriptor of `file` in the words of the specification, as far as the code follows
them: the token and name that the configuration `config` sets for the directory name of the
file when that name, followed by a star, matches the base name of the file; the default token
and no name otherwise. -/
def expected (defaultLogKey : GoString) (config : ContainerMap) (file : GoString) : LogWatch :=
  match (if (Match (containerDir file ++ str "*") (Base file)).1
      then mapGet config (containerDir file) else none) with
  | some c =>
    { Key := if c.Key = [] then defaultLogKey else c.Key, File := file, Name := c.Name }
  | none => { Key := defaultLogKey, File := file, Name := [] }

/-- The key and the descriptor that `AddLog` writes for `file` when its loop has stopped at
`found` (`none`: no key matched). -/
def written (defaultLogKey file : GoString) (found : Option (GoString × LogWatch)) :
    GoString × LogWatch :=
  match found with
  | none => (Base (Dir file), { Key := defaultLogKey, File := file, Name := [] })
  | some e =>
    (if e.1 = [] then Base (Dir file) else e.1,
      { Key := if e.2.Key = [] then defaultLogKey else e.2.Key, File := file, Name := e.2.Name })

/-- No identifier of the ignore list is a key of the store. -/
def noIgnoredKey (wl : WatchLogs) : Prop := ∀ k ∈ wl.Ignore, k ∉ mapKeys wl.entries

end Dle

/-! ## The path library: `Clean` keeps the last elements of a path -/

namespace GoLib

theorem cleanLoop_succ (rooted : Bool) (fuel : Nat) (c : UInt8) (rest out : GoString)
    (dotdot : Nat) :
    cleanLoop rooted (fuel + 1) (c :: rest) out dotdot =
      cleanLoop rooted fuel (cleanRest c rest) (cleanOut rooted c rest out dotdot)
        (cleanDotdot rooted c rest out dotdot) := by
  unfold cleanRest cleanOut cleanDotdot isDot isDotDot
  rw [cleanLoop]
  split_ifs <;> rfl

theorem Bdry.of_suffix {s l : GoString} (h : s <:+ l) (hl : Bdry l) : Bdry s := by
  by_cases hs : s = []
  · exact Or.inl hs
  · right
    obtain ⟨t, rfl⟩ := h
    rcases hl with hl | hl
    · simp at hl
      exact absurd hl.2 hs
    · rw [List.getLast?_append_of_ne_nil _ hs] at hl
      exact hl

theorem takeWhile_append_of_mem {p : UInt8 → Bool} {l y : GoString}
    (h : ∃ b ∈ l, p b = false) : (l ++ y).takeWhile p = l.takeWhile p ∧
      (l ++ y).dropWhile p = l.dropWhile p ++ y := by
  induction l with
  | nil => simp at h
  | cons a t ih =>
    by_cases ha : p a = true
    · obtain ⟨b, hb, hpb⟩ := h
      have hbt : ∃ b ∈ t, p b = false := by
        rcases List.mem_cons.mp hb with h1 | h1
        · rw [h1, ha] at hpb
          cases hpb
        · exact ⟨b, h1, hpb⟩
      simp [List.takeWhile_cons, List.dropWhile_cons, ha, ih hbt]
    · simp [List.takeWhile_cons, List.dropWhile_cons, ha]

theorem cleanRest_suffix (c : UInt8) (rest : GoString) : cleanRest c rest <:+ rest := by
  unfold cleanRest
  split_ifs with h1 h2 h3
  · exact List.suffix_refl _
  · exact List.suffix_refl _
  · exact List.tail_suffix _
  · have hc : (c != Separator) = true := by simpa using h1
    simp only [List.dropWhile_cons, hc, if_true]
    exact List.dropWhile_suffix _

theorem cleanRest_length (c : UInt8) (rest : GoString) :
    (cleanRest c rest).length ≤ rest.length :=
  (cleanRest_suffix c rest).length_le

theorem cleanLoop_fuel (rooted : Bool) (f : Nat) :
    ∀ (p out : GoString) (dotdot : Nat), p.length ≤ f →
      cleanLoop rooted f p out dotdot = cleanLoop rooted p.length p out dotdot := by
  induction f using Nat.strong_induction_on with
  | _ f ih =>
    intro p out dotdot hp
    cases p with
    | nil => cases f <;> rfl
    | cons c rest =>
      cases f with
      | zero => simp at hp
      | succ f =>
        have hlen := cleanRest_length c rest
        simp only [List.length_cons] at hp ⊢
        rw [cleanLoop_succ, cleanLoop_succ,
          ih f (Nat.lt_succ_self f) _ _ _ (by omega)]
        by_cases hf : rest.length = f
        · rw [hf, ih f (Nat.lt_succ_self f) _ _ _ (by omega)]
        · rw [ih rest.length (by omega) _ _ _ hlen]

theorem getLast?_tail_of_ne {c : UInt8} {xr : GoString}
    (hb : (c :: xr).getLast? = some Separator) (hc : c ≠ Separator) :
    xr ≠ [] ∧ xr.getLast? = some Separator := by
  cases xr with
  | nil =>
    simp at hb
    exact absurd hb hc
  | cons a t =>
    refine ⟨by simp, ?_⟩
    rw [List.getLast?_cons_cons] at hb
    exact hb

theorem isDot_append {c : UInt8} {xr : GoString} (y : GoString) (hx : xr ≠ []) :
    isDot c (xr ++ y) ↔ isDot c xr := by
  unfold isDot
  cases xr with
  | nil => exact absurd rfl hx
  | cons a t => simp

theorem isDotDot_append {c : UInt8} {xr : GoString} (y : GoString)
    (hx : xr.getLast? = some Separator) :
    isDotDot c (xr ++ y) ↔ isDotDot c xr := by
  unfold isDotDot
  cases xr with
  | nil => simp at hx
  | cons a t =>
    cases t with
    | nil =>
      simp only [List.getLast?_singleton, Option.some.injEq] at hx
      subst hx
      have : ¬ Separator = (46 : UInt8) := by decide
      simp [this]
    | cons b u => simp

theorem cleanStep_append (rooted : Bool) (c : UInt8) (xr y out : GoString) (dotdot : Nat)
    (hb : (c :: xr).getLast? = some Separator) :
    cleanRest c (xr ++ y) = cleanRest c xr ++ y ∧
      cleanOut rooted c (xr ++ y) out dotdot = cleanOut rooted c xr out dotdot ∧
      cleanDotdot rooted c (xr ++ y) out dotdot = cleanDotdot rooted c xr out dotdot := by
  by_cases hc : c = Separator
  · simp [cleanRest, cleanOut, cleanDotdot, hc]
  · obtain ⟨hx, hlast⟩ := getLast?_tail_of_ne hb hc
    have hdot := isDot_append (c := c) y hx
    have hdd := isDotDot_append (c := c) y hlast
    have hmem : ∃ b ∈ c :: xr, (fun b => b != Separator) b = false := by
      refine ⟨Separator, ?_, by simp⟩
      exact List.mem_of_getLast?_eq_some hb
    have htw := takeWhile_append_of_mem (y := y) hmem
    rw [List.cons_append] at htw
    unfold cleanRest cleanOut cleanDotdot
    simp only [hc, if_false, hdot, hdd, htw.1, htw.2, List.tail_append_of_ne_nil hx]
    refine ⟨?_, trivial, trivial⟩
    split_ifs <;> rfl

theorem cleanBacktrack_ge (out : GoString) (dotdot : Nat) :
    ∀ w, dotdot ≤ w → dotdot ≤ cleanBacktrack out dotdot w := by
  intro w
  induction w with
  | zero => intro h; simpa [cleanBacktrack] using h
  | succ w ih =>
    intro h
    unfold cleanBacktrack
    split_ifs with h1
    · exact ih (by omega)
    · exact h

theorem Rooted.step {rooted : Bool} {out : GoString} {dotdot : Nat}
    (h : Rooted rooted out dotdot) (c : UInt8) (rest : GoString) :
    Rooted rooted (cleanOut rooted c rest out dotdot) (cleanDotdot rooted c rest out dotdot) := by
  intro hr
  obtain ⟨hd, hh⟩ := h hr
  subst hr
  have hne : out ≠ [] := by
    intro h0
    rw [h0] at hh
    simp at hh
  unfold cleanOut cleanDotdot
  by_cases h1 : c = Separator
  · simp only [h1, if_true]
    exact ⟨hd, hh⟩
  · simp only [h1, if_false]
    by_cases h2 : isDot c rest
    · simp only [h2, if_true]
      exact ⟨hd, hh⟩
    · simp only [h2, if_false]
      by_cases h3 : isDotDot c rest
      · simp only [h3, if_true]
        by_cases h4 : out.length > dotdot
        · simp only [h4, if_true]
          refine ⟨hd, ?_⟩
          have hge := cleanBacktrack_ge out dotdot (out.length - 1) (by omega)
          cases out with
          | nil => exact absurd rfl hne
          | cons a t =>
            cases hw : cleanBacktrack (a :: t) dotdot ((a :: t).length - 1) with
            | zero => rw [hw, hd] at hge; omega
            | succ w => simpa using hh
        · simp only [h4, if_false, Bool.not_true, Bool.false_eq_true]
          exact ⟨hd, hh⟩
      · simp only [h3, if_false]
        refine ⟨hd, ?_⟩
        cases out with
        | nil => exact absurd rfl hne
        | cons a t =>
          split_ifs <;> simpa using hh

theorem cleanLoop_skip (rooted : Bool) :
    ∀ (n : Nat) (x : GoString), x.length ≤ n → Bdry x →
      ∀ (y out : GoString) (dotdot : Nat), Rooted rooted out dotdot →
        ∃ out1 dotdot1, Rooted rooted out1 dotdot1 ∧
          cleanLoop rooted (x ++ y).length (x ++ y) out dotdot
            = cleanLoop rooted y.length y out1 dotdot1 := by
  intro n
  induction n with
  | zero =>
    intro x hx _ y out dotdot hr
    have : x = [] := List.length_eq_zero.mp (Nat.le_zero.mp hx)
    subst this
    exact ⟨out, dotdot, hr, rfl⟩
  | succ n ih =>
    intro x hx hb y out dotdot hr
    cases x with
    | nil => exact ⟨out, dotdot, hr, rfl⟩
    | cons c xr =>
      have hlast : (c :: xr).getLast? = some Separator := by
        rcases hb with h | h
        · cases h
        · exact h
      obtain ⟨h1, h2, h3⟩ := cleanStep_append rooted c xr y out dotdot hlast
      have hsuf : cleanRest c xr <:+ c :: xr :=
        (cleanRest_suffix c xr).trans (List.suffix_cons c xr)
      have hlen : (cleanRest c xr).length ≤ n := by
        have := cleanRest_length c xr
        simp only [List.length_cons] at hx
        omega
      obtain ⟨out1, dotdot1, hr1, heq⟩ := ih (cleanRest c xr) hlen (Bdry.of_suffix hsuf hb) y
        (cleanOut rooted c xr out dotdot) (cleanDotdot rooted c xr out dotdot) (hr.step c xr)
      refine ⟨out1, dotdot1, hr1, ?_⟩
      rw [List.cons_append, List.length_cons, cleanLoop_succ, h1, h2, h3,
        cleanLoop_fuel rooted _ _ _ _ (by
          have := cleanRest_length c xr
          simp only [List.length_append]
          omega)]
      exact heq

theorem takeWhile_plain {e t : GoString} (he : Separator ∉ e)
    (ht : t = [] ∨ t.head? = some Separator) :
    (e ++ t).takeWhile (fun b => b != Separator) = e ∧
      (e ++ t).dropWhile (fun b => b != Separator) = t := by
  induction e with
  | nil =>
    cases t with
    | nil => simp
    | cons a u =>
      rcases ht with h | h
      · cases h
      · simp only [List.head?_cons, Option.some.injEq] at h
        subst h
        simp
  | cons a u ih =>
    have ha : a ≠ Separator := fun h => he (h ▸ List.mem_cons_self _ _)
    have hu : Separator ∉ u := fun h => he (List.mem_cons_of_mem _ h)
    have hne : (a != Separator) = true := by simpa using ha
    simp [List.takeWhile_cons, List.dropWhile_cons, hne, ih hu]

theorem head?_ne_of_plain {e t : GoString} (he : Separator ∉ e) (hne : e ≠ []) :
    (e ++ t).head? ≠ some Separator := by
  cases e with
  | nil => exact absurd rfl hne
  | cons a u =>
    simp only [List.cons_append, List.head?_cons, ne_eq, Option.some.injEq]
    exact fun h => he (h ▸ List.mem_cons_self _ _)

theorem cleanStep_plain (rooted : Bool) (c : UInt8) (u t out : GoString) (dotdot : Nat)
    (he : Plain (c :: u)) (ht : t = [] ∨ t.head? = some Separator) :
    cleanRest c (u ++ t) = t ∧
      cleanOut rooted c (u ++ t) out dotdot = withSep rooted out ++ c :: u ∧
      cleanDotdot rooted c (u ++ t) out dotdot = dotdot := by
  obtain ⟨_, hsep, h1, h2⟩ := he
  have hc : c ≠ Separator := fun h => hsep (h ▸ List.mem_cons_self _ _)
  have hu : Separator ∉ u := fun h => hsep (List.mem_cons_of_mem _ h)
  have hdot : ¬ isDot c (u ++ t) := by
    rintro ⟨h46, h⟩
    cases u with
    | nil =>
      subst h46
      exact h1 rfl
    | cons a v =>
      rcases h with h | h
      · simp at h
      · exact head?_ne_of_plain hu (by simp) h
  have hdd : ¬ isDotDot c (u ++ t) := by
    rintro ⟨h46, hh, h⟩
    cases u with
    | nil =>
      rcases ht with ht | ht
      · subst ht
        simp at hh
      · simp only [List.nil_append] at hh
        rw [ht] at hh
        have : ¬ Separator = (46 : UInt8) := by decide
        simp at hh
        exact this hh
    | cons a v =>
      simp only [List.cons_append, List.head?_cons, Option.some.injEq] at hh
      subst hh
      subst h46
      have hv : Separator ∉ v := fun h => hu (List.mem_cons_of_mem _ h)
      cases v with
      | nil => exact h2 rfl
      | cons b w =>
        simp only [List.cons_append, List.tail_cons] at h
        rcases h with h | h
        · simp at h
        · simp only [List.head?_cons, Option.some.injEq] at h
          exact hv (h ▸ List.mem_cons_self _ _)
  have htw := takeWhile_plain (e := c :: u) (t := t) hsep ht
  rw [List.cons_append] at htw
  unfold cleanRest cleanOut cleanDotdot withSep
  simp only [hc, if_false, hdot, hdd, htw.1, htw.2]
  exact ⟨trivial, trivial, trivial⟩

theorem cleanLoop_plain (rooted : Bool) (e t out : GoString) (dotdot : Nat)
    (he : Plain e) (ht : t = [] ∨ t.head? = some Separator) :
    cleanLoop rooted (e ++ t).length (e ++ t) out dotdot
      = cleanLoop rooted t.length t (withSep rooted out ++ e) dotdot := by
  cases e with
  | nil => exact absurd rfl he.1
  | cons c u =>
    obtain ⟨h1, h2, h3⟩ := cleanStep_plain rooted c u t out dotdot he ht
    rw [List.cons_append, List.length_cons, cleanLoop_succ, h1, h2, h3,
      cleanLoop_fuel rooted _ _ _ _ (by simp)]

theorem Rooted.bdry_withSep {rooted : Bool} {out : GoString} {dotdot : Nat}
    (h : Rooted rooted out dotdot) : Bdry (withSep rooted out) := by
  unfold withSep
  split_ifs with hc
  · right
    simp
  · cases rooted with
    | false =>
      left
      simp only [Bool.false_eq_true, false_and, Bool.not_false, true_and, false_or,
        ne_eq, Decidable.not_not] at hc
      exact List.length_eq_zero.mp hc
    | true =>
      right
      obtain ⟨_, hh⟩ := h rfl
      simp only [true_and, Bool.not_true, Bool.false_eq_true, false_and, or_false,
        ne_eq, Decidable.not_not] at hc
      cases out with
      | nil => simp at hc
      | cons a u =>
        simp only [List.length_cons, add_left_eq_self, List.length_eq_zero] at hc
        subst hc
        simpa using hh

theorem Rooted.plain {rooted : Bool} {out : GoString} {dotdot : Nat}
    (h : Rooted rooted out dotdot) (e : GoString) :
    Rooted rooted (withSep rooted out ++ e) dotdot := by
  intro hr
  obtain ⟨hd, hh⟩ := h hr
  refine ⟨hd, ?_⟩
  cases out with
  | nil => simp at hh
  | cons a u =>
    unfold withSep
    split_ifs <;> simpa using hh

theorem withSep_of_cond {rooted : Bool} {o : GoString}
    (h : (rooted = true ∧ o.length ≠ 1) ∨ ((!rooted) = true ∧ o.length ≠ 0)) :
    withSep rooted o = o ++ [Separator] := by
  unfold withSep
  rw [if_pos h]

theorem withSep_plain {rooted : Bool} {out : GoString} {dotdot : Nat}
    (h : Rooted rooted out dotdot) {e : GoString} (he : e ≠ []) :
    withSep rooted (withSep rooted out ++ e) = withSep rooted out ++ e ++ [Separator] := by
  have hlen : 0 < e.length := List.length_pos.mpr he
  have hcond : (rooted = true ∧ (withSep rooted out ++ e).length ≠ 1) ∨
      ((!rooted) = true ∧ (withSep rooted out ++ e).length ≠ 0) := by
    cases rooted with
    | false =>
      right
      refine ⟨rfl, ?_⟩
      simp only [List.length_append]
      omega
    | true =>
      left
      refine ⟨rfl, ?_⟩
      obtain ⟨_, hh⟩ := h rfl
      have : 0 < (withSep true out).length := by
        cases out with
        | nil => simp at hh
        | cons a u =>
          unfold withSep
          split_ifs <;> simp
      simp only [List.length_append]
      omega
  exact withSep_of_cond hcond

theorem cleanLoop_two (rooted : Bool) (x e g out : GoString) (dotdot : Nat) (hx : Bdry x)
    (he : Plain e) (hg : Plain g) (hr : Rooted rooted out dotdot) :
    ∃ p, Bdry p ∧
      cleanLoop rooted (x ++ (e ++ Separator :: g)).length (x ++ (e ++ Separator :: g)) out
        dotdot = p ++ e ++ Separator :: g := by
  obtain ⟨out1, dotdot1, hr1, h1⟩ :=
    cleanLoop_skip rooted x.length x (le_refl _) hx (e ++ Separator :: g) out dotdot hr
  refine ⟨withSep rooted out1, hr1.bdry_withSep, ?_⟩
  rw [h1, cleanLoop_plain rooted e (Separator :: g) out1 dotdot1 he (Or.inr rfl),
    List.length_cons, cleanLoop_succ]
  have hs1 : cleanRest Separator g = g := by simp [cleanRest]
  have hs2 : cleanOut rooted Separator g (withSep rooted out1 ++ e) dotdot1
      = withSep rooted out1 ++ e := by simp [cleanOut]
  have hs3 : cleanDotdot rooted Separator g (withSep rooted out1 ++ e) dotdot1 = dotdot1 := by
    simp [cleanDotdot]
  rw [hs1, hs2, hs3]
  have h2 := cleanLoop_plain rooted g [] (withSep rooted out1 ++ e) dotdot1 hg (Or.inl rfl)
  rw [List.append_nil] at h2
  rw [h2, withSep_plain hr1 he.1]
  simp [cleanLoop]

theorem cleanLoop_one (rooted : Bool) (x e out : GoString) (dotdot : Nat) (hx : Bdry x)
    (he : Plain e) (hr : Rooted rooted out dotdot) :
    ∃ q, Bdry q ∧
      cleanLoop rooted (x ++ (e ++ [Separator])).length (x ++ (e ++ [Separator])) out dotdot
        = q ++ e := by
  obtain ⟨out1, dotdot1, hr1, h1⟩ :=
    cleanLoop_skip rooted x.length x (le_refl _) hx (e ++ [Separator]) out dotdot hr
  refine ⟨withSep rooted out1, hr1.bdry_withSep, ?_⟩
  rw [h1, cleanLoop_plain rooted e [Separator] out1 dotdot1 he (Or.inr rfl)]
  simp [cleanLoop]

theorem Clean_eq_cleanLoop (x y : GoString) (hx : Bdry x)
    (hy : y ≠ [] ∧ y.head? ≠ some Separator) :
    ∃ rooted x1 out dotdot, Bdry x1 ∧ Rooted rooted out dotdot ∧
      Clean (x ++ y) =
        if cleanLoop rooted (x1 ++ y).length (x1 ++ y) out dotdot = [] then str "."
        else cleanLoop rooted (x1 ++ y).length (x1 ++ y) out dotdot := by
  cases x with
  | nil =>
    cases y with
    | nil => exact absurd rfl hy.1
    | cons c u =>
      have hc : (c == Separator) = false := by
        have := hy.2
        simp only [List.head?_cons, ne_eq, Option.some.injEq] at this
        simpa using this
      refine ⟨false, [], [], 0, Or.inl rfl, (fun h => Bool.noConfusion h), ?_⟩
      simp only [List.nil_append, Clean, hc, Bool.false_eq_true, if_false]
      rw [cleanLoop_fuel false _ _ _ _ (Nat.le_succ _)]
  | cons a xr =>
    by_cases ha : a = Separator
    · subst ha
      have hb : Bdry xr := Bdry.of_suffix (List.suffix_cons _ _) hx
      refine ⟨true, xr, [Separator], 1, hb, fun _ => ⟨rfl, rfl⟩, ?_⟩
      have hc : (Separator == Separator) = true := by decide
      simp only [List.cons_append, Clean, hc, if_true]
      rw [cleanLoop_fuel true _ _ _ _ (by simp only [List.length_cons]; omega)]
    · have hc : (a == Separator) = false := by simpa using ha
      refine ⟨false, a :: xr, [], 0, hx, (fun h => Bool.noConfusion h), ?_⟩
      simp only [List.cons_append, Clean, hc, Bool.false_eq_true, if_false]
      rw [cleanLoop_fuel false _ _ _ _ (Nat.le_succ _)]

theorem Plain.head_ne {e : GoString} (he : Plain e) (t : GoString) :
    e ++ t ≠ [] ∧ (e ++ t).head? ≠ some Separator :=
  ⟨by simp [he.1], head?_ne_of_plain he.2.1 he.1⟩

theorem Clean_two (x e g : GoString) (hx : Bdry x) (he : Plain e) (hg : Plain g) :
    ∃ p, Bdry p ∧ Clean (x ++ (e ++ Separator :: g)) = p ++ e ++ Separator :: g := by
  obtain ⟨rooted, x1, out, dotdot, hx1, hr, hC⟩ :=
    Clean_eq_cleanLoop x (e ++ Separator :: g) hx (he.head_ne _)
  obtain ⟨p, hp, hl⟩ := cleanLoop_two rooted x1 e g out dotdot hx1 he hg hr
  refine ⟨p, hp, ?_⟩
  rw [hC, hl, if_neg (by simp)]

theorem Clean_one (x e : GoString) (hx : Bdry x) (he : Plain e) :
    ∃ q, Bdry q ∧ Clean (x ++ (e ++ [Separator])) = q ++ e := by
  obtain ⟨rooted, x1, out, dotdot, hx1, hr, hC⟩ :=
    Clean_eq_cleanLoop x (e ++ [Separator]) hx (he.head_ne _)
  obtain ⟨q, hq, hl⟩ := cleanLoop_one rooted x1 e out dotdot hx1 he hr
  refine ⟨q, hq, ?_⟩
  rw [hC, hl, if_neg (by simp [he.1])]

theorem Base_plain (q e : GoString) (hq : Bdry q) (he : Plain e) : Base (q ++ e) = e := by
  have hne : q ++ e ≠ [] := by simp [he.1]
  have hrev : Separator ∉ e.reverse := fun h => he.2.1 (List.mem_reverse.mp h)
  have hqr : q.reverse = [] ∨ q.reverse.head? = some Separator := by
    rcases hq with h | h
    · left
      simp [h]
    · right
      rw [List.head?_reverse]
      exact h
  have h1 : (q ++ e).reverse.dropWhile (fun b => b == Separator) = (q ++ e).reverse := by
    rw [List.reverse_append]
    cases hr : e.reverse with
    | nil => exact absurd (List.reverse_eq_nil_iff.mp hr) he.1
    | cons a u =>
      have ha : a ≠ Separator := by
        intro h
        apply hrev
        rw [hr, h]
        exact List.mem_cons_self _ _
      simp [List.dropWhile_cons, ha]
  have h2 := (takeWhile_plain (e := e.reverse) (t := q.reverse) hrev hqr).1
  unfold Base
  rw [if_neg hne]
  simp only [h1, List.reverse_reverse]
  rw [List.reverse_append, h2, List.reverse_reverse, if_neg he.1]

theorem Dir_two (p e g : GoString) (hg : Separator ∉ g) :
    Dir (p ++ e ++ Separator :: g) = Clean (p ++ (e ++ [Separator])) := by
  have hrev : ∀ b ∈ g.reverse, (fun b => b != Separator) b = true := by
    intro b hb
    have : b ≠ Separator := fun h => hg (h ▸ List.mem_reverse.mp hb)
    simpa using this
  unfold Dir
  have : (p ++ e ++ Separator :: g).reverse
      = g.reverse ++ Separator :: (p ++ e).reverse := by simp
  rw [this, List.dropWhile_append_of_pos hrev]
  simp [List.dropWhile_cons]

theorem Plain.json {entry : GoString} (h : Plain entry) : Plain (entry ++ str "-json.log") := by
  have hlen : (entry ++ str "-json.log").length = entry.length + 9 := by
    rw [List.length_append]
    rfl
  refine ⟨by simp [h.1], ?_, ?_, ?_⟩
  · intro hm
    rcases List.mem_append.mp hm with h1 | h1
    · exact h.2.1 h1
    · revert h1
      decide
  · intro heq
    have := congrArg List.length heq
    rw [hlen] at this
    simp at this
  · intro heq
    have := congrArg List.length heq
    rw [hlen] at this
    simp at this

end GoLib

/-! ## The Docker daemon variant: `LogWriter`, `AddContainer`, the delivery loop -/

namespace DleDocker

open GoLib

theorem osExpand_token (f : GoString → Option GoString) :
    osExpand (str "$DLE_TOKEN") f = f (str "DLE_TOKEN") := by
  have h : osExpand (str "$DLE_TOKEN") f = (match f (str "DLE_TOKEN") with
        | none => none
        | some v => (some []).map (fun r => v ++ r)) := by
    rfl
  rw [h]
  cases f (str "DLE_TOKEN") <;> simp

theorem osExpand_ignore (f : GoString → Option GoString) :
    osExpand (str "$DLE_IGNORE") f = f (str "DLE_IGNORE") := by
  have h : osExpand (str "$DLE_IGNORE") f = (match f (str "DLE_IGNORE") with
        | none => none
        | some v => (some []).map (fun r => v ++ r)) := by
    rfl
  rw [h]
  cases f (str "DLE_IGNORE") <;> simp

theorem stringsHasPrefix_eq (s pre : GoString) :
    stringsHasPrefix s pre = pre.isPrefixOf s := by
  rw [Bool.eq_iff_iff]
  simp only [stringsHasPrefix, Bool.and_eq_true, decide_eq_true_eq, List.isPrefixOf_iff_prefix]
  constructor
  · rintro ⟨_, h⟩
    exact List.prefix_iff_eq_take.mpr h.symm
  · intro h
    exact ⟨h.length_le, (List.prefix_iff_eq_take.mp h).symm⟩

theorem dropWhile_ne_drop (a : UInt8) (v : GoString) :
    (v.dropWhile (fun b => b != a)).drop 1 = v.drop (v.indexOf a + 1) := by
  induction v with
  | nil => simp
  | cons b t ih =>
    by_cases hb : b = a
    · subst hb
      simp [List.dropWhile_cons, List.indexOf_cons_self]
    · have hne : (b != a) = true := by simpa using hb
      rw [List.dropWhile_cons, if_pos hne, ih, List.indexOf_cons_ne _ hb]
      simp

theorem splitN_second (v : GoString) (h : (61 : UInt8) ∈ v) :
    (stringsSplitN v 61 2).get? 1 = some (afterFirstEq v) := by
  have h2 : stringsSplitN v 61 2 = [v.takeWhile (fun b => b != 61),
      (v.dropWhile (fun b => b != 61)).drop 1] := by
    simp only [stringsSplitN, if_pos h]
  rw [h2, dropWhile_ne_drop]
  rfl

theorem mem_of_isPrefixOf (key v : GoString) (h : (key ++ str "=").isPrefixOf v = true) :
    (61 : UInt8) ∈ v := by
  rw [List.isPrefixOf_iff_prefix] at h
  exact h.subset (List.mem_append_right _ (by decide))

theorem envExpand_eq (env : List GoString) (key : GoString) :
    envExpand env key = some (overrideValue key env) := by
  induction env with
  | nil => rfl
  | cons v rest ih =>
    unfold envExpand
    rw [stringsHasPrefix_eq]
    by_cases h : (key ++ str "=").isPrefixOf v = true
    · rw [if_pos h, splitN_second v (mem_of_isPrefixOf key v h)]
      simp [overrideValue, List.find?_cons, h]
    · rw [if_neg h, ih]
      simp [overrideValue, List.find?_cons, h]

theorem deliver_fatal_iff (net : Nat → Bool) (lines : List GoString) (n : Nat) :
    (mainLoop net n lines).2 = .fatal ↔ Act.connect false ∈ (mainLoop net n lines).1 := by
  induction lines generalizing n with
  | nil => simp [mainLoop]
  | cons l rest ih =>
    unfold mainLoop
    by_cases h0 : net n = true
    · simp [h0, ih]
    · by_cases h1 : net (n + 1) = true
      · simp [h0, h1, ih]
      · simp [h0, h1]

/-- C1: for every token and every payload `p`, `LogWriter.Write(p)` sends exactly one value on
the logline channel, the bytes of the token immediately followed by the bytes of `p`, and
returns `len(p)` without an error; the test of the repository (token `XX-XX`, payload
`this is a test`) receives `XX-XXthis is a test`. -/
theorem C1_write_sends_token_then_payload (token p : GoString) (logline : List GoString) :
    LogWriter.Write ⟨token⟩ logline p
        = { logline := logline ++ [token ++ p], n := p.length, err := none } ∧
      (LogWriter.Write ⟨str "XX-XX"⟩ [] (str "this is a test")).logline
        = [str "XX-XXthis is a test"] :=
  ⟨rfl, by decide⟩

/-- C2: for every environment list and every default token, `AddContainer` either ignores the
container (exactly when `DLE_IGNORE` has a non-empty value) or gives its `LogWriter` the token
of the specification: the text after the first `=` of the first entry that starts with
`DLE_TOKEN=` when that text is not empty, the default token otherwise.  It never panics. -/
theorem C2_token_is_override_or_default (env : List GoString) (defaultToken : GoString) :
    AddContainer (some env) defaultToken =
      if overrideValue (str "DLE_IGNORE") env ≠ [] then AddResult.ignored
      else AddResult.watching ⟨specToken env defaultToken⟩ := by
  simp only [AddContainer, osExpand_token, osExpand_ignore, envExpand_eq, specToken]
  by_cases h1 : overrideValue (str "DLE_IGNORE") env = []
  · by_cases h2 : overrideValue (str "DLE_TOKEN") env = [] <;> simp [h1, h2]
  · simp [h1]


/-- C5, counterexample: the first write of the line `first` fails, the reconnect succeeds and
the retried write fails; the loop does not end the process but goes on to write the line
`second`, and ends only when the channel is drained. -/
theorem C5_continues_after_failed_retry :
    mainLoop (fun k => decide (k = 1 ∨ k = 3)) 0 [str "first", str "second"]
      = ([.write (str "first") false, .connect true, .write (str "first") false,
          .write (str "second") true], .drained) := by
  decide

/-- C5, amended: for every line whose first write fails, exactly one reconnect is attempted; if
it fails the process ends fatally with nothing more written; if it succeeds the same line is
written exactly once more and, whatever that retried write returns, the loop goes on with the
next line.  The process ends fatally exactly when a reconnect fails. -/
theorem C5_reconnect_policy (net : Nat → Bool) (n : Nat) (l : GoString)
    (rest : List GoString) (hfail : net n = false) :
    (mainLoop net n (l :: rest) =
      if net (n + 1) then
        (.write l false :: .connect true :: .write l (net (n + 2)) ::
          (mainLoop net (n + 3) rest).1, (mainLoop net (n + 3) rest).2)
      else ([.write l false, .connect false, .fatal], .fatal)) ∧
    ((mainLoop net n (l :: rest)).2 = .fatal ↔
      Act.connect false ∈ (mainLoop net n (l :: rest)).1) := by
  refine ⟨?_, deliver_fatal_iff net (l :: rest) n⟩
  simp [mainLoop, hfail]

/-- C5, witness: the policy at a connection whose first and third calls fail. -/
theorem C5_reconnect_policy_witness :
    (fun k => decide (k = 1 ∨ k = 3)) 0 = false ∧
    (mainLoop (fun k => decide (k = 1 ∨ k = 3)) 0 [str "first", str "second"] =
      if (fun k => decide (k = 1 ∨ k = 3)) (0 + 1) then
        (.write (str "first") false :: .connect true ::
          .write (str "first") ((fun k => decide (k = 1 ∨ k = 3)) (0 + 2)) ::
          (mainLoop (fun k => decide (k = 1 ∨ k = 3)) (0 + 3) [str "second"]).1,
          (mainLoop (fun k => decide (k = 1 ∨ k = 3)) (0 + 3) [str "second"]).2)
      else ([.write (str "first") false, .connect false, .fatal], .fatal)) ∧
    ((mainLoop (fun k => decide (k = 1 ∨ k = 3)) 0 [str "first", str "second"]).2 = .fatal ↔
      Act.connect false ∈
        (mainLoop (fun k => decide (k = 1 ∨ k = 3)) 0 [str "first", str "second"]).1) :=
  ⟨by decide, C5_reconnect_policy _ 0 (str "first") [str "second"] (by decide)⟩

end DleDocker

/-! ## The log file variant: the store, `New`, `AddLog`, `Watch`, `LogLine.String` -/

namespace Dle

open GoLib

theorem firstMatch_eq_none {l : ContainerMap} {fn : GoString} :
    firstMatch l fn = none ↔ ∀ e ∈ l, (Match (e.1 ++ str "*") fn).1 = false := by
  induction l with
  | nil => simp [firstMatch]
  | cons e rest ih =>
    unfold firstMatch
    by_cases h : (Match (e.1 ++ str "*") fn).1 = true
    · simp [h]
    · simp [h, ih]

theorem firstMatch_eq_some {l : ContainerMap} {fn : GoString} {e : GoString × LogWatch}
    (h : firstMatch l fn = some e) : e ∈ l ∧ (Match (e.1 ++ str "*") fn).1 = true := by
  induction l with
  | nil => simp [firstMatch] at h
  | cons a rest ih =>
    unfold firstMatch at h
    by_cases ha : (Match (a.1 ++ str "*") fn).1 = true
    · rw [if_pos ha] at h
      cases h
      exact ⟨List.mem_cons_self _ _, ha⟩
    · rw [if_neg ha] at h
      exact ⟨List.mem_cons_of_mem _ (ih h).1, (ih h).2⟩

theorem mem_mapSet {m : ContainerMap} {k : GoString} {v : LogWatch} {e : GoString × LogWatch}
    (h : e ∈ mapSet m k v) : e ∈ m ∨ e = (k, v) := by
  induction m with
  | nil => simpa [mapSet] using h
  | cons a rest ih =>
    unfold mapSet at h
    by_cases ha : a.1 = k
    · rw [if_pos ha] at h
      rcases List.mem_cons.mp h with h | h
      · exact Or.inr h
      · exact Or.inl (List.mem_cons_of_mem _ h)
    · rw [if_neg ha] at h
      rcases List.mem_cons.mp h with h | h
      · exact Or.inl (h ▸ List.mem_cons_self _ _)
      · rcases ih h with h | h
        · exact Or.inl (List.mem_cons_of_mem _ h)
        · exact Or.inr h

theorem mapSet_mem_self (m : ContainerMap) (k : GoString) (v : LogWatch) :
    (k, v) ∈ mapSet m k v := by
  induction m with
  | nil => simp [mapSet]
  | cons a rest ih =>
    unfold mapSet
    by_cases ha : a.1 = k
    · simp [ha]
    · simp [ha, ih]

theorem mem_mapSet_of_ne {m : ContainerMap} {k : GoString} {v : LogWatch}
    {e : GoString × LogWatch} (h : e ∈ m) (hne : e.1 ≠ k) : e ∈ mapSet m k v := by
  induction m with
  | nil => simp at h
  | cons a rest ih =>
    unfold mapSet
    rcases List.mem_cons.mp h with h | h
    · subst h
      simp [hne]
    · by_cases ha : a.1 = k
      · simp [ha, h]
      · simp [ha, ih h]

theorem mapSet_idem (m : ContainerMap) (k : GoString) (v : LogWatch) :
    mapSet (mapSet m k v) k v = mapSet m k v := by
  induction m with
  | nil => simp [mapSet]
  | cons a rest ih =>
    by_cases ha : a.1 = k
    · simp [mapSet, ha]
    · simp [mapSet, ha, ih]

theorem mapGet_mapSet_self (m : ContainerMap) (k : GoString) (v : LogWatch) :
    mapGet (mapSet m k v) k = some v := by
  induction m with
  | nil => simp [mapSet, mapGet]
  | cons a rest ih =>
    by_cases ha : a.1 = k
    · simp [mapSet, mapGet, ha]
    · simp [mapSet, mapGet, ha, ih]

theorem mem_visit (order : RangeOrder) (m : ContainerMap) (e : GoString × LogWatch) :
    e ∈ order.visit m ↔ e ∈ m :=
  (order.perm m).mem_iff

theorem AddLog_eq (d : GoString) (order : RangeOrder) (m : ContainerMap) (ign : List GoString)
    (file : GoString) :
    AddLog d order ⟨some m, ign⟩ file =
      some ⟨some (mapSet m (written d file (firstMatch (order.visit m) (Base file))).1
        (written d file (firstMatch (order.visit m) (Base file))).2), ign⟩ := by
  have he : WatchLogs.entries ⟨some m, ign⟩ = m := rfl
  simp only [AddLog, he]
  cases firstMatch (order.visit m) (Base file) <;> simp [written]

theorem AddLog_nil (d : GoString) (order : RangeOrder) (ign : List GoString)
    (file : GoString) : AddLog d order ⟨none, ign⟩ file = none := by
  simp [AddLog]

/-- After `AddLog` has written `written d file found` into the map, a second `AddLog` of the
same file chooses the same key and descriptor, whatever the order of its range. -/
theorem written_stable (d file : GoString) (o1 o2 : RangeOrder) (m : ContainerMap)
    (huniq : ∀ e1 ∈ m, ∀ e2 ∈ m, (Match (e1.1 ++ str "*") (Base file)).1 = true →
      (Match (e2.1 ++ str "*") (Base file)).1 = true → e1 = e2) :
    written d file (firstMatch (o2.visit (mapSet m
        (written d file (firstMatch (o1.visit m) (Base file))).1
        (written d file (firstMatch (o1.visit m) (Base file))).2)) (Base file))
      = written d file (firstMatch (o1.visit m) (Base file)) := by
  cases h1 : firstMatch (o1.visit m) (Base file) with
  | none =>
    have hno := firstMatch_eq_none.mp h1
    cases h2 : firstMatch (o2.visit (mapSet m (written d file none).1
        (written d file none).2)) (Base file) with
    | none => rfl
    | some e =>
      obtain ⟨hmem, hP⟩ := firstMatch_eq_some h2
      rw [mem_visit] at hmem
      rcases mem_mapSet hmem with hm | he
      · have := hno e ((mem_visit o1 m e).mpr hm)
        rw [this] at hP
        cases hP
      · subst he
        simp [written]
  | some e1 =>
    obtain ⟨hmem1, hP1⟩ := firstMatch_eq_some h1
    rw [mem_visit] at hmem1
    cases h2 : firstMatch (o2.visit (mapSet m (written d file (some e1)).1
        (written d file (some e1)).2)) (Base file) with
    | none =>
      exfalso
      have hno := firstMatch_eq_none.mp h2
      by_cases hk : e1.1 = (written d file (some e1)).1
      · have := hno _ ((mem_visit o2 _ _).mpr
          (mapSet_mem_self m (written d file (some e1)).1 (written d file (some e1)).2))
        simp only at this
        rw [← hk, hP1] at this
        cases this
      · have := hno e1 ((mem_visit o2 _ _).mpr (mem_mapSet_of_ne hmem1 hk))
        rw [hP1] at this
        cases this
    | some e2 =>
      obtain ⟨hmem2, hP2⟩ := firstMatch_eq_some h2
      rw [mem_visit] at hmem2
      rcases mem_mapSet hmem2 with hm | he
      · rw [huniq e2 hm e1 hmem1 hP2 hP1]
      · subst he
        by_cases hs : e1.1 = [] <;> by_cases hc : e1.2.Key = [] <;> simp [written, hs, hc]

theorem mapGet_eq_none_iff (m : ContainerMap) (k : GoString) :
    mapGet m k = none ↔ k ∉ mapKeys m := by
  induction m with
  | nil => simp [mapGet, mapKeys]
  | cons a rest ih =>
    by_cases ha : a.1 = k
    · simp [mapGet, mapKeys, ha]
    · have hk : ¬ k = a.1 := fun h => ha h.symm
      simp only [mapKeys] at ih
      simp [mapGet, mapKeys, ha, hk, ih]

theorem mem_mapKeys_mapSet {m : ContainerMap} {k k' : GoString} {v : LogWatch}
    (h : k' ∈ mapKeys (mapSet m k v)) : k' = k ∨ k' ∈ mapKeys m := by
  simp only [mapKeys, List.mem_map] at h ⊢
  obtain ⟨e, he, rfl⟩ := h
  rcases mem_mapSet he with h | h
  · exact Or.inr ⟨e, h, rfl⟩
  · exact Or.inl (by rw [h])

theorem mem_mapKeys_filter {m : ContainerMap} {p : GoString × LogWatch → Bool} {k : GoString}
    (h : k ∈ mapKeys (m.filter p)) : k ∈ mapKeys m := by
  simp only [mapKeys, List.mem_map] at h ⊢
  obtain ⟨e, he, rfl⟩ := h
  exact ⟨e, (List.mem_filter.mp he).1, rfl⟩

theorem not_mem_mapKeys_mapDelete (m : ContainerMap) (k : GoString) :
    k ∉ mapKeys (mapDelete m k) := by
  simp only [mapKeys, mapDelete, List.mem_map, not_exists, not_and]
  intro e he hk
  have := (List.mem_filter.mp he).2
  simp [hk] at this

theorem mem_mapKeys_removeIgnored {ign : List GoString} {m : ContainerMap} {k : GoString}
    (h : k ∈ mapKeys (removeIgnored ign m)) : k ∈ mapKeys m := by
  induction ign generalizing m with
  | nil => exact h
  | cons cid rest ih =>
    unfold removeIgnored at h
    have h1 := ih h
    by_cases hc : (mapGet m cid).isSome = true
    · rw [if_pos hc] at h1
      exact mem_mapKeys_filter h1
    · rw [if_neg hc] at h1
      exact h1

theorem not_mem_mapKeys_removeIgnored {ign : List GoString} {m : ContainerMap} {k : GoString}
    (hk : k ∈ ign) : k ∉ mapKeys (removeIgnored ign m) := by
  induction ign generalizing m with
  | nil => simp at hk
  | cons cid rest ih =>
    unfold removeIgnored
    rcases List.mem_cons.mp hk with h | h
    · subst h
      intro hmem
      have h1 := mem_mapKeys_removeIgnored hmem
      by_cases hc : (mapGet m k).isSome = true
      · rw [if_pos hc] at h1
        exact not_mem_mapKeys_mapDelete m k h1
      · rw [if_neg hc] at h1
        have hn : mapGet m k = none := by
          cases hg : mapGet m k with
          | none => rfl
          | some v => simp [hg] at hc
        exact (mapGet_eq_none_iff m k).mp hn h1
    · exact ih h

theorem AddLog_some {d : GoString} {order : RangeOrder} {wl wl1 : WatchLogs} {file : GoString}
    (h : AddLog d order wl file = some wl1) :
    ∃ m, wl.Containers = some m ∧
      wl1 = ⟨some (mapSet m (written d file (firstMatch (order.visit m) (Base file))).1
        (written d file (firstMatch (order.visit m) (Base file))).2), wl.Ignore⟩ := by
  obtain ⟨c, ign⟩ := wl
  cases c with
  | none => simp [AddLog] at h
  | some m =>
    rw [AddLog_eq] at h
    exact ⟨m, rfl, (Option.some.inj h).symm⟩

theorem addLogs_ignore {d : GoString} {order : Nat → RangeOrder} {files : List GoString}
    {i : Nat} {wl wl1 : WatchLogs} (h : addLogs d order i files wl = some wl1) :
    wl1.Ignore = wl.Ignore := by
  induction files generalizing i wl with
  | nil =>
    simp only [addLogs, Option.some.injEq] at h
    rw [h]
  | cons f rest ih =>
    unfold addLogs at h
    cases ha : AddLog d (order i) wl f with
    | none => simp [ha] at h
    | some w =>
      rw [ha] at h
      obtain ⟨m, _, hw⟩ := AddLog_some ha
      rw [ih h, hw]

theorem New_noIgnoredKey {d : GoString} {order : Nat → RangeOrder} {config wl : WatchLogs}
    {files : List GoString} (h : New d order config files = some wl) :
    noIgnoredKey wl ∧ wl.Ignore = config.Ignore := by
  unfold New at h
  cases ha : addLogs d order 0 files config with
  | none => simp [ha] at h
  | some w =>
    rw [ha] at h
    simp only [Option.some.injEq] at h
    subst h
    have hign : w.Ignore = config.Ignore := addLogs_ignore ha
    refine ⟨?_, hign⟩
    intro k hk
    cases hc : w.Containers with
    | none => simp [WatchLogs.entries, hc, mapKeys]
    | some m =>
      simp only [WatchLogs.entries, hc, Option.map_some', Option.getD_some]
      intro hmem
      exact not_mem_mapKeys_removeIgnored hk (mem_mapKeys_filter hmem)

/-- The names the watcher reports, a directory followed by a separator and the name of a
directory entry, make the handler derive a log file that lies in a directory of that name. -/
theorem inDirectory_of_entry (dir entry : GoString) (create remove isDir acked : Bool)
    (h : Plain entry) :
    (Event.mk (dir ++ Separator :: entry) create remove isDir acked).inDirectory = true := by
  have hb : Bdry (dir ++ [Separator]) := Or.inr (by simp)
  have hname : dir ++ Separator :: entry = (dir ++ [Separator]) ++ entry := by simp
  have hbase : Base (dir ++ Separator :: entry) = entry := by
    rw [hname]
    exact Base_plain _ _ hb h
  have hne : dir ++ Separator :: entry ≠ [] := by simp
  have hjoin : Join [dir ++ Separator :: entry, entry ++ str "-json.log"]
      = Clean ((dir ++ [Separator]) ++ (entry ++ Separator :: (entry ++ str "-json.log"))) := by
    simp only [Join, joinSep, if_pos hne]
    congr 1
    simp
  obtain ⟨p, hp, hclean⟩ := Clean_two (dir ++ [Separator]) entry _ hb h h.json
  obtain ⟨q, hq, hdir⟩ := Clean_one p entry hp h
  simp only [Event.inDirectory, decide_eq_true_eq, hbase]
  rw [hjoin, hclean, Dir_two p entry _ h.json.2.1, hdir]
  exact Base_plain q entry hq h

theorem Event.inDirectory_of_fromWatcher {event : Event} (h : event.fromWatcher) :
    event.inDirectory = true := by
  obtain ⟨dir, entry, hn, hp⟩ := h
  obtain ⟨name, create, remove, isDir, acked⟩ := event
  simp only at hn
  subst hn
  exact inDirectory_of_entry dir entry create remove isDir acked hp

theorem handleEvent_noIgnoredKey {d : GoString} {order : RangeOrder} {wl wl1 : WatchLogs}
    {event : Event} {ws : List (Option LogWatch)} (hinv : noIgnoredKey wl)
    (hdir : event.create = true → event.inDirectory = true)
    (h : handleEvent d order wl event = .done wl1 ws) :
    noIgnoredKey wl1 ∧ wl1.Ignore = wl.Ignore := by
  unfold handleEvent at h
  by_cases hcr : event.create = true
  · rw [if_pos hcr] at h
    by_cases hd : event.isDir = true
    · rw [if_pos hd] at h
      simp only at h
      by_cases hadd : (!(wl.Ignore.any (fun icid => Base event.Name == icid))) = true
      · rw [if_pos hadd] at h
        cases ha : AddLog d order wl (Join [event.Name, Base event.Name ++ str "-json.log"]) with
        | none => simp [ha] at h
        | some w =>
          rw [ha] at h
          simp only [Step.done.injEq] at h
          obtain ⟨m, hm, hw⟩ := AddLog_some ha
          rw [← h.1, hw]
          refine ⟨?_, rfl⟩
          intro k hk hmem
          have hk' : k ∈ wl.Ignore := hk
          have hmem' : k ∈ mapKeys (mapSet m _ _) := hmem
          have hkm : k ∉ mapKeys m := by
            have := hinv k hk'
            simpa [WatchLogs.entries, hm] using this
          rcases mem_mapKeys_mapSet hmem' with hkey | hkey
          · -- the key written is the directory name or a key of the store
            have hcid : Base (Dir (Join [event.Name, Base event.Name ++ str "-json.log"]))
                = Base event.Name := by
              simpa [Event.inDirectory] using hdir hcr
            have hnot : Base event.Name ∉ wl.Ignore := by
              intro hin
              simp only [Bool.not_eq_true', List.any_eq_false] at hadd
              have := hadd _ hin
              simp at this
            cases hf : firstMatch (order.visit m)
                (Base (Join [event.Name, Base event.Name ++ str "-json.log"])) with
            | none =>
              rw [hf] at hkey
              simp only [written] at hkey
              rw [hcid] at hkey
              exact hnot (hkey ▸ hk')
            | some e =>
              rw [hf] at hkey
              simp only [written] at hkey
              by_cases hs : e.1 = []
              · rw [if_pos hs, hcid] at hkey
                exact hnot (hkey ▸ hk')
              · rw [if_neg hs] at hkey
                have hem := (mem_visit order m e).mp (firstMatch_eq_some hf).1
                apply hkm
                rw [hkey]
                exact List.mem_map.mpr ⟨e, hem, rfl⟩
          · exact hkm hkey
      · rw [if_neg hadd] at h
        simp only [Step.done.injEq] at h
        rw [← h.1]
        exact ⟨hinv, rfl⟩
    · rw [if_neg hd] at h
      simp only [Step.done.injEq] at h
      rw [← h.1]
      exact ⟨hinv, rfl⟩
  · rw [if_neg hcr] at h
    by_cases hrm : event.remove = true
    · rw [if_pos hrm] at h
      simp only at h
      cases hg : wl.Containers.bind (fun m => mapGet m (Base event.Name)) with
      | none =>
        rw [hg] at h
        simp only [Step.done.injEq] at h
        rw [← h.1]
        exact ⟨hinv, rfl⟩
      | some c =>
        rw [hg] at h
        by_cases hack : event.acked = true
        · rw [if_pos hack] at h
          simp only [Step.done.injEq] at h
          rw [← h.1]
          refine ⟨?_, rfl⟩
          intro k hk hmem
          have hk' : k ∈ wl.Ignore := hk
          apply hinv k hk'
          cases hc : wl.Containers with
          | none => simp [WatchLogs.entries, hc, mapKeys] at hmem
          | some m =>
            simp only [WatchLogs.entries, hc, Option.map_some', Option.getD_some] at hmem ⊢
            exact mem_mapKeys_filter hmem
        · rw [if_neg hack] at h
          cases h
    · rw [if_neg hrm] at h
      simp only [Step.done.injEq] at h
      rw [← h.1]
      exact ⟨hinv, rfl⟩

theorem handleEvents_noIgnoredKey {d : GoString} {events : List (Event × RangeOrder)}
    {wl wl1 : WatchLogs} (hinv : noIgnoredKey wl)
    (hdir : ∀ p ∈ events, p.1.create = true → p.1.inDirectory = true)
    (h : WatchDockerLogDirectory d events wl = some wl1) :
    noIgnoredKey wl1 ∧ wl1.Ignore = wl.Ignore := by
  induction events generalizing wl with
  | nil =>
    simp only [WatchDockerLogDirectory, Option.some.injEq] at h
    rw [← h]
    exact ⟨hinv, rfl⟩
  | cons p rest ih =>
    obtain ⟨event, order⟩ := p
    unfold WatchDockerLogDirectory at h
    cases hs : handleEvent d order wl event with
    | done w ws =>
      rw [hs] at h
      simp only at h
      have h1 := handleEvent_noIgnoredKey hinv (hdir (event, order) (List.mem_cons_self _ _)) hs
      have h2 := ih h1.1 (fun p hp => hdir p (List.mem_cons_of_mem _ hp)) h
      exact ⟨h2.1, h2.2.trans h1.2⟩
    | panicked => simp [hs] at h
    | blocked => simp [hs] at h

theorem mapGet_some_mem {m : ContainerMap} {k : GoString} {c : LogWatch}
    (h : mapGet m k = some c) : (k, c) ∈ m := by
  induction m with
  | nil => simp [mapGet] at h
  | cons a rest ih =>
    unfold mapGet at h
    by_cases ha : a.1 = k
    · rw [if_pos ha] at h
      have : a = (k, c) := by
        obtain ⟨a1, a2⟩ := a
        simp only at ha h
        simp only [Option.some.injEq] at h
        rw [ha, h]
      rw [this]
      exact List.mem_cons_self _ _
    · rw [if_neg ha] at h
      exact List.mem_cons_of_mem _ (ih h)

theorem mapGet_of_mem_nodup {m : ContainerMap} {k : GoString} {c : LogWatch}
    (hnd : (mapKeys m).Nodup) (h : (k, c) ∈ m) : mapGet m k = some c := by
  induction m with
  | nil => simp at h
  | cons a rest ih =>
    simp only [mapKeys, List.map_cons, List.nodup_cons] at hnd
    unfold mapGet
    rcases List.mem_cons.mp h with h | h
    · rw [← h]
      simp
    · have hne : a.1 ≠ k := by
        intro ha
        apply hnd.1
        rw [ha]
        exact List.mem_map.mpr ⟨(k, c), h, rfl⟩
      rw [if_neg hne]
      exact ih hnd.2 h

theorem mapGet_mapSet_ne {m : ContainerMap} {k k' : GoString} {v : LogWatch} (hne : k' ≠ k) :
    mapGet (mapSet m k v) k' = mapGet m k' := by
  have h1 : ¬ k = k' := fun h => hne h.symm
  induction m with
  | nil => simp only [mapSet, mapGet, if_neg h1]
  | cons a rest ih =>
    by_cases ha : a.1 = k
    · have h2 : ¬ a.1 = k' := fun h => hne (h.symm.trans ha)
      simp only [mapSet, if_pos ha, mapGet, if_neg h1, if_neg h2]
    · simp only [mapSet, if_neg ha, mapGet]
      by_cases hb : a.1 = k'
      · rw [if_pos hb, if_pos hb]
      · rw [if_neg hb, if_neg hb, ih]

theorem nodup_mapKeys_mapSet {m : ContainerMap} (k : GoString) (v : LogWatch)
    (hnd : (mapKeys m).Nodup) : (mapKeys (mapSet m k v)).Nodup := by
  induction m with
  | nil => simp [mapSet, mapKeys]
  | cons a rest ih =>
    simp only [mapKeys, List.map_cons, List.nodup_cons] at hnd
    by_cases ha : a.1 = k
    · simp only [mapSet, if_pos ha, mapKeys, List.map_cons, List.nodup_cons]
      exact ⟨ha ▸ hnd.1, hnd.2⟩
    · simp only [mapSet, if_neg ha, mapKeys, List.map_cons, List.nodup_cons]
      refine ⟨?_, ih hnd.2⟩
      intro hmem
      rcases mem_mapKeys_mapSet hmem with h | h
      · exact ha h
      · exact hnd.1 h

theorem mapGet_filter {m : ContainerMap} {p : GoString × LogWatch → Bool} {k : GoString}
    {v : LogWatch} (h : mapGet m k = some v) (hp : p (k, v) = true) :
    mapGet (m.filter p) k = some v := by
  induction m with
  | nil => simp [mapGet] at h
  | cons a rest ih =>
    unfold mapGet at h
    by_cases ha : a.1 = k
    · rw [if_pos ha] at h
      have hav : a = (k, v) := by
        obtain ⟨a1, a2⟩ := a
        simp only at ha h
        simp only [Option.some.injEq] at h
        rw [ha, h]
      rw [hav, List.filter_cons_of_pos hp]
      simp [mapGet]
    · rw [if_neg ha] at h
      by_cases hpa : p a = true
      · rw [List.filter_cons_of_pos hpa]
        simp [mapGet, ha, ih h]
      · rw [List.filter_cons_of_neg hpa]
        exact ih h

theorem mapGet_removeIgnored {ign : List GoString} {m : ContainerMap} {k : GoString}
    {v : LogWatch} (hk : k ∉ ign) (h : mapGet m k = some v) :
    mapGet (removeIgnored ign m) k = some v := by
  induction ign generalizing m with
  | nil => exact h
  | cons cid rest ih =>
    unfold removeIgnored
    apply ih (fun hmem => hk (List.mem_cons_of_mem _ hmem))
    by_cases hc : (mapGet m cid).isSome = true
    · rw [if_pos hc]
      apply mapGet_filter h
      have : k ≠ cid := fun heq => hk (heq ▸ List.mem_cons_self _ _)
      simpa using this
    · rw [if_neg hc]
      exact h

/-- What `AddLog` writes for a file whose base name only its own directory name can match. -/
theorem written_eq_expected (d : GoString) (order : RangeOrder) (config m : ContainerMap)
    (file : GoString) (hnd : (mapKeys m).Nodup)
    (hsame : mapGet m (containerDir file) = mapGet config (containerDir file))
    (hown : ∀ k ∈ mapKeys m, (Match (k ++ str "*") (Base file)).1 = true →
      k = containerDir file) :
    written d file (firstMatch (order.visit m) (Base file))
      = (containerDir file, expected d config file) := by
  cases hf : firstMatch (order.visit m) (Base file) with
  | none =>
    have hno := firstMatch_eq_none.mp hf
    have hnone : (if (Match (containerDir file ++ str "*") (Base file)).1
        then mapGet config (containerDir file) else none) = none := by
      by_cases hP : (Match (containerDir file ++ str "*") (Base file)).1 = true
      · rw [if_pos hP, ← hsame]
        cases hg : mapGet m (containerDir file) with
        | none => rfl
        | some c =>
          have := hno _ ((mem_visit order m _).mpr (mapGet_some_mem hg))
          simp only at this
          rw [hP] at this
          cases this
      · rw [if_neg hP]
    simp only [written, expected, hnone]
    rfl
  | some e =>
    obtain ⟨hmem, hP⟩ := firstMatch_eq_some hf
    rw [mem_visit] at hmem
    have hk : e.1 = containerDir file := hown e.1 (List.mem_map.mpr ⟨e, hmem, rfl⟩) hP
    have hg : mapGet m (containerDir file) = some e.2 := by
      apply mapGet_of_mem_nodup hnd
      rw [← hk]
      exact hmem
    have hsome : (if (Match (containerDir file ++ str "*") (Base file)).1
        then mapGet config (containerDir file) else none) = some e.2 := by
      rw [← hk, if_pos hP, hk, ← hsame, hg]
    simp only [written, expected, hsome]
    by_cases hs : e.1 = []
    · rw [if_pos hs]
      rfl
    · rw [if_neg hs, hk]

theorem addLogs_expected (d : GoString) (order : Nat → RangeOrder) (config : ContainerMap)
    (ign : List GoString) (all : List GoString)
    (hown : ∀ f ∈ all, ∀ k ∈ mapKeys config ++ all.map containerDir,
      (Match (k ++ str "*") (Base f)).1 = true → k = containerDir f) :
    ∀ (files seen : List GoString) (i : Nat) (m : ContainerMap),
      (∀ f ∈ seen ++ files, f ∈ all) →
      ((seen ++ files).map containerDir).Nodup →
      (mapKeys m).Nodup →
      (∀ k ∈ mapKeys m, k ∈ mapKeys config ∨ k ∈ seen.map containerDir) →
      (∀ k, k ∉ seen.map containerDir → mapGet m k = mapGet config k) →
      (∀ f ∈ seen, mapGet m (containerDir f) = some (expected d config f)) →
      ∃ m1, addLogs d order i files ⟨some m, ign⟩ = some ⟨some m1, ign⟩ ∧
        ∀ f ∈ seen ++ files, mapGet m1 (containerDir f) = some (expected d config f) := by
  intro files
  induction files with
  | nil =>
    intro seen i m _ _ _ _ _ hseen
    exact ⟨m, rfl, by simpa using hseen⟩
  | cons f rest ih =>
    intro seen i m hall hnd hm hkeys hsame hseen
    have hfall : f ∈ all := hall f (by simp)
    have hfresh : containerDir f ∉ seen.map containerDir := by
      rw [List.map_append, List.nodup_append] at hnd
      intro hin
      exact hnd.2.2 hin (by simp)
    have hw := written_eq_expected d (order i) config m f hm (hsame _ hfresh) (by
      intro k hk hP
      apply hown f hfall k _ hP
      rcases hkeys k hk with h | h
      · exact List.mem_append_left _ h
      · apply List.mem_append_right
        obtain ⟨g, hg, rfl⟩ := List.mem_map.mp h
        exact List.mem_map.mpr ⟨g, hall g (List.mem_append_left _ hg), rfl⟩)
    have hstep : addLogs d order i (f :: rest) ⟨some m, ign⟩
        = addLogs d order (i + 1) rest
            ⟨some (mapSet m (containerDir f) (expected d config f)), ign⟩ := by
      rw [addLogs, AddLog_eq, hw]
    have happ : (seen ++ [f]) ++ rest = seen ++ f :: rest := by simp
    obtain ⟨m1, h1, h2⟩ := ih (seen ++ [f]) (i + 1)
      (mapSet m (containerDir f) (expected d config f))
      (by rw [happ]; exact hall)
      (by rw [happ]; exact hnd)
      (nodup_mapKeys_mapSet _ _ hm)
      (by
        intro k hk
        rcases mem_mapKeys_mapSet hk with h | h
        · exact Or.inr (by simp [h])
        · rcases hkeys k h with h | h
          · exact Or.inl h
          · exact Or.inr (by
              rw [List.map_append]
              exact List.mem_append_left _ h))
      (by
        intro k hk
        rw [List.map_append, List.mem_append, not_or] at hk
        have hne : k ≠ containerDir f := by
          intro h
          exact hk.2 (by simp [h])
        rw [mapGet_mapSet_ne hne]
        exact hsame k hk.1)
      (by
        intro g hg
        rcases List.mem_append.mp hg with h | h
        · have hne : containerDir g ≠ containerDir f := by
            intro heq
            apply hfresh
            rw [← heq]
            exact List.mem_map.mpr ⟨g, h, rfl⟩
          rw [mapGet_mapSet_ne hne]
          exact hseen g h
        · simp only [List.mem_singleton] at h
          rw [h]
          exact mapGet_mapSet_self _ _ _)
    refine ⟨m1, hstep.trans h1, ?_⟩
    rw [← happ]
    exact h2

/-- The handler starts a tailer only for a directory whose name is not on the ignore list. -/
theorem handleEvent_watch_not_ignored {d : GoString} {order : RangeOrder} {wl wl1 : WatchLogs}
    {event : Event} {ws : List (Option LogWatch)}
    (h : handleEvent d order wl event = .done wl1 ws) (hws : ws ≠ []) :
    Base event.Name ∉ wl.Ignore := by
  unfold handleEvent at h
  by_cases hcr : event.create = true
  · rw [if_pos hcr] at h
    by_cases hd : event.isDir = true
    · rw [if_pos hd] at h
      simp only at h
      by_cases hadd : (!(wl.Ignore.any (fun icid => Base event.Name == icid))) = true
      · intro hin
        simp only [Bool.not_eq_true', List.any_eq_false] at hadd
        have := hadd _ hin
        simp at this
      · rw [if_neg hadd] at h
        simp only [Step.done.injEq] at h
        exact absurd h.2.symm hws
    · rw [if_neg hd] at h
      simp only [Step.done.injEq] at h
      exact absurd h.2.symm hws
  · rw [if_neg hcr] at h
    by_cases hrm : event.remove = true
    · rw [if_pos hrm] at h
      simp only at h
      cases hg : wl.Containers.bind (fun m => mapGet m (Base event.Name)) with
      | none =>
        rw [hg] at h
        simp only [Step.done.injEq] at h
        exact absurd h.2.symm hws
      | some c =>
        rw [hg] at h
        by_cases hack : event.acked = true
        · rw [if_pos hack] at h
          simp only [Step.done.injEq] at h
          exact absurd h.2.symm hws
        · rw [if_neg hack] at h
          cases h
    · rw [if_neg hrm] at h
      simp only [Step.done.injEq] at h
      exact absurd h.2.symm hws

/-- C3, counterexample: on the witness of the specification (files `abc123/app-json.log` and
`def456/app-json.log`, a token `TOK` configured for `abc123`, default token `DEF`) the store
built by `New` has two descriptors, and the one of `abc123` carries the default token, not the
configured one: the key `abc123` does not match the base name `app-json.log`. -/
theorem C3_spec_witness_gets_default_tokens :
    New (str "DEF") (fun _ => RangeOrder.listed)
        ⟨some [(str "abc123", ⟨str "TOK", [], []⟩)], []⟩
        [str "logs/abc123/app-json.log", str "logs/def456/app-json.log"]
      = some ⟨some [(str "abc123", ⟨str "DEF", str "logs/abc123/app-json.log", []⟩),
          (str "def456", ⟨str "DEF", str "logs/def456/app-json.log", []⟩)], []⟩ := by
  decide

/-- C3, amended: for every configuration with a container table (each key once), every default
token, every order of the map iterations and every list of non-empty log files, one per parent
directory, such that the only key able to match the base name of a file is the name of its own
parent directory: `New` returns a store that holds, for each file whose parent directory is
named `id` and is not ignored, a descriptor keyed by `id` for that file, whose token is the one
the configuration sets for `id` when `id*` matches the base name of the file (and that token is
not empty), and the default token otherwise. -/
theorem C3_new_descriptors (d : GoString) (order : Nat → RangeOrder) (config : ContainerMap)
    (ign : List GoString) (files : List GoString)
    (hkeys : (mapKeys config).Nodup)
    (hdirs : (files.map containerDir).Nodup)
    (hfiles : ∀ f ∈ files, f ≠ [])
    (hown : ∀ f ∈ files, ∀ k ∈ mapKeys config ++ files.map containerDir,
      (Match (k ++ str "*") (Base f)).1 = true → k = containerDir f) :
    ∃ wl, New d order ⟨some config, ign⟩ files = some wl ∧ wl.Ignore = ign ∧
      ∀ f ∈ files, containerDir f ∉ ign →
        mapGet wl.entries (containerDir f) = some (expected d config f) := by
  obtain ⟨m1, h1, h2⟩ := addLogs_expected d order config ign files hown files [] 0 config
    (by simp) (by simpa using hdirs) hkeys (fun k hk => Or.inl hk) (fun _ _ => rfl)
    (by simp)
  refine ⟨_, by rw [New, h1], rfl, ?_⟩
  intro f hf hnot
  simp only [WatchLogs.entries, Option.map_some', Option.getD_some]
  apply mapGet_filter (mapGet_removeIgnored hnot (h2 f (by simpa using hf)))
  have : (expected d config f).File = f := by
    unfold expected
    split <;> rfl
  simp [this, hfiles f hf]

/-- C3, witness: the layout of Docker, `abc123/abc123-json.log` and `def456/def456-json.log`,
with a token configured for `abc123` only. -/
theorem C3_new_descriptors_witness :
    (mapKeys [(str "abc123", (⟨str "TOK", [], []⟩ : LogWatch))]).Nodup ∧
    (([str "logs/abc123/abc123-json.log", str "logs/def456/def456-json.log"]).map
      containerDir).Nodup ∧
    (∀ f ∈ [str "logs/abc123/abc123-json.log", str "logs/def456/def456-json.log"], f ≠ []) ∧
    (∀ f ∈ [str "logs/abc123/abc123-json.log", str "logs/def456/def456-json.log"],
      ∀ k ∈ mapKeys [(str "abc123", (⟨str "TOK", [], []⟩ : LogWatch))] ++
        ([str "logs/abc123/abc123-json.log", str "logs/def456/def456-json.log"]).map
          containerDir,
      (Match (k ++ str "*") (Base f)).1 = true → k = containerDir f) ∧
    ∃ wl, New (str "DEF") (fun _ => RangeOrder.listed)
        ⟨some [(str "abc123", ⟨str "TOK", [], []⟩)], []⟩
        [str "logs/abc123/abc123-json.log", str "logs/def456/def456-json.log"] = some wl ∧
      wl.Ignore = [] ∧
      ∀ f ∈ [str "logs/abc123/abc123-json.log", str "logs/def456/def456-json.log"],
        containerDir f ∉ ([] : List GoString) →
        mapGet wl.entries (containerDir f)
          = some (expected (str "DEF") [(str "abc123", ⟨str "TOK", [], []⟩)] f) :=
  ⟨by decide, by decide, by decide, by decide,
    C3_new_descriptors (str "DEF") (fun _ => RangeOrder.listed)
      [(str "abc123", ⟨str "TOK", [], []⟩)] []
      [str "logs/abc123/abc123-json.log", str "logs/def456/def456-json.log"]
      (by decide) (by decide) (by decide) (by decide)⟩

/-- No identifier of the ignore list is ever a key of the descriptor store.  The store
returned by `New` has no key on its ignore list, and handling any sequence of events of the
directory watcher (a creation event names an entry of a directory) keeps the ignore list and
keeps the store free of ignored keys; the handler then starts a tailer only for a directory
whose name is not ignored.  This is about keys only, not about the files that the stored
descriptors name. -/
theorem ignored_never_key (d : GoString) (order : Nat → RangeOrder)
    (config wl wl1 : WatchLogs) (files : List GoString) (events : List (Event × RangeOrder))
    (hnew : New d order config files = some wl)
    (hdir : ∀ p ∈ events, p.1.create = true → p.1.fromWatcher)
    (hrun : WatchDockerLogDirectory d events wl = some wl1) :
    (∀ k ∈ wl.Ignore, k ∉ mapKeys wl.entries) ∧ wl1.Ignore = wl.Ignore ∧
      (∀ k ∈ wl1.Ignore, k ∉ mapKeys wl1.entries) ∧
      (∀ event o wl2 ws, handleEvent d o wl1 event = .done wl2 ws → ws ≠ [] →
        Base event.Name ∉ wl1.Ignore) :=
  have hin : ∀ p ∈ events, p.1.create = true → p.1.inDirectory = true :=
    fun p hp hc => Event.inDirectory_of_fromWatcher (hdir p hp hc)
  ⟨(New_noIgnoredKey hnew).1,
    (handleEvents_noIgnoredKey (New_noIgnoredKey hnew).1 hin hrun).2,
    (handleEvents_noIgnoredKey (New_noIgnoredKey hnew).1 hin hrun).1,
    fun _ _ _ _ h hws => handleEvent_watch_not_ignored h hws⟩

/-- The key invariant at work: `def456` is ignored; its log file is dropped by `New`, its
creation event adds nothing, the directory `ghi789` is added and `abc123` removed. -/
theorem ignored_never_key_example :
    New (str "DEF") (fun _ => RangeOrder.listed)
        ⟨some [(str "abc123", ⟨str "TOK", [], []⟩)], [str "def456"]⟩
        [str "logs/abc123/abc123-json.log", str "logs/def456/def456-json.log"]
      = some ⟨some [(str "abc123", ⟨str "TOK", str "logs/abc123/abc123-json.log", []⟩)],
          [str "def456"]⟩ ∧
    (∀ p ∈ [((⟨str "logs" ++ Separator :: str "def456", true, false, true, true⟩ : Event),
          RangeOrder.listed),
        (⟨str "logs" ++ Separator :: str "ghi789", true, false, true, true⟩,
          RangeOrder.reversed),
        (⟨str "logs" ++ Separator :: str "abc123", false, true, false, true⟩,
          RangeOrder.listed)],
      p.1.create = true → p.1.fromWatcher) ∧
    WatchDockerLogDirectory (str "DEF")
        [(⟨str "logs" ++ Separator :: str "def456", true, false, true, true⟩,
            RangeOrder.listed),
          (⟨str "logs" ++ Separator :: str "ghi789", true, false, true, true⟩,
            RangeOrder.reversed),
          (⟨str "logs" ++ Separator :: str "abc123", false, true, false, true⟩,
            RangeOrder.listed)]
        ⟨some [(str "abc123", ⟨str "TOK", str "logs/abc123/abc123-json.log", []⟩)],
          [str "def456"]⟩
      = some ⟨some [(str "ghi789", ⟨str "DEF", str "logs/ghi789/ghi789-json.log", []⟩)],
          [str "def456"]⟩ ∧
    ((∀ k ∈ [str "def456"],
        k ∉ mapKeys [(str "abc123",
          (⟨str "TOK", str "logs/abc123/abc123-json.log", []⟩ : LogWatch))]) ∧
      [str "def456"] = [str "def456"] ∧
      (∀ k ∈ [str "def456"],
        k ∉ mapKeys [(str "ghi789",
          (⟨str "DEF", str "logs/ghi789/ghi789-json.log", []⟩ : LogWatch))]) ∧
      (∀ event o wl2 ws, handleEvent (str "DEF") o
          ⟨some [(str "ghi789", ⟨str "DEF", str "logs/ghi789/ghi789-json.log", []⟩)],
            [str "def456"]⟩ event = .done wl2 ws → ws ≠ [] →
        Base event.Name ∉ [str "def456"])) :=
  have hplain : ∀ e ∈ [str "def456", str "ghi789", str "abc123"], Plain e := by
    unfold Plain
    decide
  ⟨by decide,
    by
      intro p hp _
      simp only [List.mem_cons, List.mem_singleton, List.not_mem_nil, or_false] at hp
      rcases hp with rfl | rfl | rfl
      · exact ⟨str "logs", str "def456", rfl, hplain _ (by simp)⟩
      · exact ⟨str "logs", str "ghi789", rfl, hplain _ (by simp)⟩
      · exact ⟨str "logs", str "abc123", rfl, hplain _ (by simp)⟩,
    by decide,
    ignored_never_key (str "DEF") (fun _ => RangeOrder.listed)
      ⟨some [(str "abc123", ⟨str "TOK", [], []⟩)], [str "def456"]⟩
      ⟨some [(str "abc123", ⟨str "TOK", str "logs/abc123/abc123-json.log", []⟩)],
        [str "def456"]⟩
      ⟨some [(str "ghi789", ⟨str "DEF", str "logs/ghi789/ghi789-json.log", []⟩)],
        [str "def456"]⟩
      [str "logs/abc123/abc123-json.log", str "logs/def456/def456-json.log"]
      [(⟨str "logs" ++ Separator :: str "def456", true, false, true, true⟩, RangeOrder.listed),
        (⟨str "logs" ++ Separator :: str "ghi789", true, false, true, true⟩,
          RangeOrder.reversed),
        (⟨str "logs" ++ Separator :: str "abc123", false, true, false, true⟩,
          RangeOrder.listed)]
      (by decide)
      (by
        intro p hp _
        simp only [List.mem_cons, List.mem_singleton, List.not_mem_nil, or_false] at hp
        rcases hp with rfl | rfl | rfl
        · exact ⟨str "logs", str "def456", rfl, hplain _ (by simp)⟩
        · exact ⟨str "logs", str "ghi789", rfl, hplain _ (by simp)⟩
        · exact ⟨str "logs", str "abc123", rfl, hplain _ (by simp)⟩)
      (by decide)⟩

/-- C4, the code at the failing input: the configuration sets the key `abc` and ignores
`abcdef`, and the log directory holds `abcdef/abcdef-json.log`.  `AddLog` files the log under
the matching key `abc`; the loop of `New` that removes ignored containers looks for the key
`abcdef`, finds none and removes nothing; the store keeps the descriptor and `Start` tails the
log file of the ignored directory.  No ignored identifier is a key of that store, and the event
handler, which tests the directory name before `AddLog`, skips the same directory. -/
theorem C4_new_keeps_ignored_file :
    New (str "DEF") (fun _ => RangeOrder.listed)
        ⟨some [(str "abc", ⟨str "TOK", [], []⟩)], [str "abcdef"]⟩
        [str "logs/abcdef/abcdef-json.log"]
      = some ⟨some [(str "abc", ⟨str "TOK", str "logs/abcdef/abcdef-json.log", []⟩)],
          [str "abcdef"]⟩ ∧
    Start RangeOrder.listed
        ⟨some [(str "abc", ⟨str "TOK", str "logs/abcdef/abcdef-json.log", []⟩)],
          [str "abcdef"]⟩
      = [some ⟨str "TOK", str "logs/abcdef/abcdef-json.log", []⟩] ∧
    str "abcdef" ∉ mapKeys [(str "abc",
        (⟨str "TOK", str "logs/abcdef/abcdef-json.log", []⟩ : LogWatch))] ∧
    handleEvent (str "DEF") RangeOrder.listed
        ⟨some [(str "abc", ⟨str "TOK", [], []⟩)], [str "abcdef"]⟩
        ⟨str "logs/abcdef", true, false, true, true⟩
      = .done ⟨some [(str "abc", ⟨str "TOK", [], []⟩)], [str "abcdef"]⟩ [] := by
  decide

/-- C6, counterexample: with parsing enabled, the line `not json` fails to decode and the
delivery loop still hands one byte, a newline, to the connection. -/
theorem C6_undecodable_line_forwards_newline :
    unmarshalPlain (str "not json") = none ∧
    mainLoop true unmarshalPlain [⟨str "not json", str "DEF", []⟩] = [str "\n"] := by
  decide

/-- C6, amended: with parsing enabled, for every decoder and every line whose text fails to
decode, `LogLine.String` is empty and the delivery loop forwards nothing of the line, its token
or its name: the single write it makes is the lone newline that `Fprintln` appends. -/
theorem C6_undecodable_line_only_newline (unmarshal : GoString → Option DockerLogEntry)
    (ll : LogLine) (h : unmarshal ll.Text = none) :
    LogLine.String true unmarshal ll = [] ∧ Fprintln true unmarshal ll = str "\n" ∧
      mainLoop true unmarshal [ll] = [str "\n"] := by
  have hn : str "\n" = [10] := by decide
  simp [mainLoop, LogEntriesConnection.Write, Fprintln, LogLine.String, h, hn]

/-- C6, witness: the line `not json` of a source with token `DEF`. -/
theorem C6_undecodable_line_only_newline_witness :
    unmarshalPlain (LogLine.mk (str "not json") (str "DEF") []).Text = none ∧
    (LogLine.String true unmarshalPlain ⟨str "not json", str "DEF", []⟩ = [] ∧
      Fprintln true unmarshalPlain ⟨str "not json", str "DEF", []⟩ = str "\n" ∧
      mainLoop true unmarshalPlain [⟨str "not json", str "DEF", []⟩] = [str "\n"]) :=
  ⟨by decide, C6_undecodable_line_only_newline unmarshalPlain
    ⟨str "not json", str "DEF", []⟩ (by decide)⟩

/-- C7, the code at the failing input: for the descriptor of `def456`, whose file is not
empty, a failed `tail.TailFile` makes `Watch` log its warning and then go on: it logs
"Watching file" and enters the loop, where the nil tail makes it panic; it does not return.
The sibling check of an empty file does return after its warning. -/
theorem C7_tail_failure_falls_through :
    Watch (some ⟨str "DEF", str "logs/def456/app-json.log", []⟩) false []
      = ([.warnTail, .infoWatching], .panicked) ∧
    Watch (some ⟨str "DEF", [], []⟩) false [] = ([.warnEmpty], .returned) := by
  decide

/-- C8, counterexample: the store configures the keys `abc` and `abcd`, which both match
`abcdef-json.log`.  The first `AddLog` visits `abc` first and writes the file there; the second
`AddLog` of the same file visits `abcd` first and writes it there too: two descriptors for one
file, and a store that differs from the store after one call. -/
theorem C8_addLog_twice_two_descriptors :
    AddLog (str "DEF") RangeOrder.listed
        ⟨some [(str "abc", ⟨str "K1", [], []⟩), (str "abcd", ⟨str "K2", [], []⟩)], []⟩
        (str "logs/abcdef/abcdef-json.log")
      = some ⟨some [(str "abc", ⟨str "K1", str "logs/abcdef/abcdef-json.log", []⟩),
          (str "abcd", ⟨str "K2", [], []⟩)], []⟩ ∧
    AddLog (str "DEF") RangeOrder.reversed
        ⟨some [(str "abc", ⟨str "K1", str "logs/abcdef/abcdef-json.log", []⟩),
          (str "abcd", ⟨str "K2", [], []⟩)], []⟩
        (str "logs/abcdef/abcdef-json.log")
      = some ⟨some [(str "abc", ⟨str "K1", str "logs/abcdef/abcdef-json.log", []⟩),
          (str "abcd", ⟨str "K2", str "logs/abcdef/abcdef-json.log", []⟩)], []⟩ := by
  decide

/-- C8, amended: for every store whose container map is not nil and in which at most one entry
has a key that matches the base name of `file`, `AddLog` is idempotent whatever the orders of
the two map iterations: the first call returns a store, the second call returns that same
store (same keys, same descriptors), and it holds a descriptor for `file`. -/
theorem C8_addLog_twice_same_store (d : GoString) (o1 o2 : RangeOrder) (m : ContainerMap)
    (ign : List GoString) (file : GoString)
    (huniq : ∀ e1 ∈ m, ∀ e2 ∈ m, (Match (e1.1 ++ str "*") (Base file)).1 = true →
      (Match (e2.1 ++ str "*") (Base file)).1 = true → e1 = e2) :
    ∃ wl1, AddLog d o1 ⟨some m, ign⟩ file = some wl1 ∧ AddLog d o2 wl1 file = some wl1 ∧
      ∃ k v, mapGet wl1.entries k = some v ∧ v.File = file := by
  refine ⟨_, AddLog_eq d o1 m ign file, ?_, _, _, mapGet_mapSet_self _ _ _, ?_⟩
  · rw [AddLog_eq, written_stable d file o1 o2 m huniq, mapSet_idem]
  · cases firstMatch (o1.visit m) (Base file) <;> rfl

/-- C8, witness: a store with the single key `abc`, which matches `abcdef-json.log`. -/
theorem C8_addLog_twice_same_store_witness :
    (∀ e1 ∈ [(str "abc", (⟨str "K1", [], []⟩ : LogWatch))],
      ∀ e2 ∈ [(str "abc", (⟨str "K1", [], []⟩ : LogWatch))],
      (Match (e1.1 ++ str "*") (Base (str "logs/abcdef/abcdef-json.log"))).1 = true →
      (Match (e2.1 ++ str "*") (Base (str "logs/abcdef/abcdef-json.log"))).1 = true →
      e1 = e2) ∧
    ∃ wl1, AddLog (str "DEF") RangeOrder.listed
        ⟨some [(str "abc", ⟨str "K1", [], []⟩)], []⟩ (str "logs/abcdef/abcdef-json.log")
          = some wl1 ∧
      AddLog (str "DEF") RangeOrder.reversed wl1 (str "logs/abcdef/abcdef-json.log")
        = some wl1 ∧
      ∃ k v, mapGet wl1.entries k = some v ∧ v.File = str "logs/abcdef/abcdef-json.log" :=
  ⟨by decide, C8_addLog_twice_same_store (str "DEF") RangeOrder.listed RangeOrder.reversed
    [(str "abc", ⟨str "K1", [], []⟩)] [] (str "logs/abcdef/abcdef-json.log") (by decide)⟩

/-- C9, counterexample: for the descriptor of `def456` (token `DEF`, no name) the line
`{"log":"hello","stream":"stdout"}` is rendered as `DEF  (stdout) hello`, with the empty name
between two spaces, and not as `DEF def456 (stdout) hello`: a `LogLine` has no source id. -/
theorem C9_string_has_name_not_id :
    LogLine.String true unmarshalPlain
        ⟨str "\x7b\"log\":\"hello\",\"stream\":\"stdout\"\x7d", str "DEF", []⟩
      = str "DEF  (stdout) hello" ∧
    LogLine.String true unmarshalPlain
        ⟨str "\x7b\"log\":\"hello\",\"stream\":\"stdout\"\x7d", str "DEF", []⟩
      ≠ str "DEF def456 (stdout) hello" := by
  decide

/-- C9, amended: with parsing enabled, for every decoder, a line whose text decodes to an
entry is rendered as the token, a space, the configured name (empty when none is configured),
a space, the stream in parentheses, a space and the message. -/
theorem C9_string_renders_token_name_stream_message
    (unmarshal : GoString → Option DockerLogEntry) (ll : LogLine) (entry : DockerLogEntry)
    (h : unmarshal ll.Text = some entry) :
    LogLine.String true unmarshal ll
      = ll.Key ++ str " " ++ ll.Name ++ str " (" ++ entry.Stream ++ str ") " ++ entry.Log := by
  simp only [LogLine.String, h, DockerLogEntry.String, if_true, List.append_assoc]
  rfl

/-- C9, witness: the line of the specification on a source with token `DEF` and name `web`. -/
theorem C9_string_renders_token_name_stream_message_witness :
    unmarshalPlain (LogLine.mk (str "\x7b\"log\":\"hello\",\"stream\":\"stdout\"\x7d")
        (str "DEF") (str "web")).Text = some ⟨str "hello", str "stdout"⟩ ∧
    LogLine.String true unmarshalPlain
        ⟨str "\x7b\"log\":\"hello\",\"stream\":\"stdout\"\x7d", str "DEF", str "web"⟩
      = (LogLine.mk (str "\x7b\"log\":\"hello\",\"stream\":\"stdout\"\x7d")
          (str "DEF") (str "web")).Key ++ str " " ++
        (LogLine.mk (str "\x7b\"log\":\"hello\",\"stream\":\"stdout\"\x7d")
          (str "DEF") (str "web")).Name ++ str " (" ++
        (DockerLogEntry.mk (str "hello") (str "stdout")).Stream ++ str ") " ++
        (DockerLogEntry.mk (str "hello") (str "stdout")).Log :=
  ⟨by decide, C9_string_renders_token_name_stream_message unmarshalPlain
    ⟨str "\x7b\"log\":\"hello\",\"stream\":\"stdout\"\x7d", str "DEF", str "web"⟩
    ⟨str "hello", str "stdout"⟩ (by decide)⟩

/-- C10, the code at the failing input: the store configures the key `abc`, a proper prefix of
the new directory name `abcdef`.  `AddLog` writes the descriptor of the new log file under
`abc`, the store has no entry under `abcdef`, and the handler starts `Watch` on the missing
entry, a nil pointer, which panics. -/
theorem C10_handler_watches_missing_descriptor :
    handleEvent (str "DEF") RangeOrder.listed
        ⟨some [(str "abc", ⟨str "TOK", [], []⟩)], []⟩
        ⟨str "/logs/abcdef", true, false, true, true⟩
      = .done ⟨some [(str "abc", ⟨str "TOK", str "/logs/abcdef/abcdef-json.log", []⟩)], []⟩
          [none] ∧
    Watch none true [] = ([], .panicked) := by
  decide

end Dle
